import Mathlib

/-!
# fibdrv: the Fibonacci character device

A shallow embedding of `fibdrv.c` and the properties of its computation core:
the bitwise `adder`, the table-driven `fib_sequence`, the decimal encoder
`fib_num_to_str` with its in-place `rev_str`, and the file operations
`fib_open`, `fib_release`, `fib_read`, `fib_write`, `fib_device_lseek`.

Conventions of the embedding.

* `unsigned long long` values are natural numbers below `2 ^ 64`; every C operation
  that can leave that range is reduced modulo `2 ^ 64` (`shl64`, `sub64`).
* `loff_t`, `ssize_t` and `int` values are integers; signed arithmetic that can leave
  the range of its type wraps in two's complement (`wrap64`, `wrap32`), which is how
  the kernel is built.  This includes the `int` loop counter of `fib_sequence`.
* A `char *` is the list of the bytes of the memory object it points into, so a buffer
  of capacity `size` may be followed by further bytes of the same object.  A load or a
  store outside the object has no defined result: the function returns `none`.
-/

namespace Fibdrv

/-! ## Machine arithmetic -/

/-- Left shift of an `unsigned long long`: bits shifted beyond bit 63 are lost. -/
def shl64 (x k : Nat) : Nat := (x <<< k) % 2 ^ 64

/-- Subtraction of two `unsigned long long` values, modulo `2 ^ 64`. -/
def sub64 (x y : Nat) : Nat := (x + 2 ^ 64 - y) % 2 ^ 64

/-- Reduction of an integer to the signed 64-bit range (`loff_t`, `ssize_t`). -/
def wrap64 (x : Int) : Int := (x + 2 ^ 63) % 2 ^ 64 - 2 ^ 63

/-- Reduction of an integer to the signed 32-bit range (`int`). -/
def wrap32 (x : Int) : Int := (x + 2 ^ 31) % 2 ^ 32 - 2 ^ 31

/-- The cast `(ssize_t) v` of an `unsigned long long`. -/
def to_ssize (v : Nat) : Int := wrap64 (v : Int)

/-- The constant `MAX_LENGTH`. -/
def MAX_LENGTH : Int := 92

/-- The kernel error number `EBUSY`. -/
def EBUSY : Int := 16

/-! ## Memory -/

/-- Read of the byte (or table cell) at index `i` of a memory object. -/
def load (m : List Nat) (i : Nat) : Option Nat := m[i]?

/-- Write of `v` at index `i` of a memory object. -/
def store (m : List Nat) (i : Nat) (v : Nat) : Option (List Nat) :=
  if i < m.length then some (m.set i v) else none

/-- Read of the cell at the signed index `j` of a memory object. -/
def load_int (m : List Nat) (j : Int) : Option Nat :=
  if 0 ≤ j then load m j.toNat else none

/-- Write of `v` at the signed index `j` of a memory object. -/
def store_int (m : List Nat) (j : Int) (v : Nat) : Option (List Nat) :=
  if 0 ≤ j then store m j.toNat v else none

/-- The library function `strlen`: the number of bytes before the first zero byte. -/
def strlen : List Nat → Option Nat
  | [] => none
  | b :: bs => if b = 0 then some 0 else (strlen bs).map (· + 1)

/-- The library function `strncpy(dst, src, n)`, with `src` given without its
terminating zero byte: `n` bytes of `dst` are written, the copy of `src` padded
with zero bytes. -/
def strncpy (dst src : List Nat) (n : Nat) : Option (List Nat) :=
  if n ≤ dst.length then
    some ((src ++ List.replicate (n - src.length) 0).take n ++ dst.drop n)
  else none

/-! ## `adder` -/

/-- One iteration of the loop of `adder` on the state `(*c, *s, a1, b1)`. -/
def adder_step : Nat × Nat × Nat × Nat → Nat × Nat × Nat × Nat
  | (_, _, a1, b1) =>
    let s := a1 ^^^ b1
    let c := shl64 (a1 &&& b1) 1
    (c, s, s, c)

/-- The state `(*c, *s, a1, b1)` of `adder` after `n` iterations of its loop. -/
def adder_loop : Nat → Nat × Nat × Nat × Nat → Nat × Nat × Nat × Nat
  | 0, st => st
  | n + 1, st => adder_loop n (adder_step st)

/-- The function `adder(c, s, a, b)`: the arguments are the values held by the four
pointers at the call, the result is the pair `(*c, *s)` on return. -/
def adder (c s a b : Nat) : Nat × Nat :=
  let r := adder_loop 64 (c, s, a, b)
  (r.1, r.2.1)

/-! ## `fib_sequence` -/

/-- The loop `for (int i = 2; i <= k; i++)` of `fib_sequence(k)`: `i` is the `int`
counter, `f` the table.  The index expressions `i - 1` and `i - 2` and the increment
`i++` are computed in `int` and wrap; the test `i <= k` compares in `long long`.
The first argument bounds the number of iterations. -/
def fib_loop (k : Int) : Nat → Int → List Nat → Option (List Nat)
  | 0, _, _ => none
  | fuel + 1, i, f =>
    if i ≤ k then
      (load_int f (wrap32 (i - 1))).bind fun x =>
      (load_int f (wrap32 (i - 2))).bind fun y =>
      let s := (adder 0 0 x y).2
      (store_int f i s).bind fun f =>
      fib_loop k fuel (wrap32 (i + 1)) f
    else some f

/-- The function `fib_sequence(k)`.  The table `f` has `k + 2` cells.  The bound
`2 ^ 31` on the iterations of the loop is always enough: the counter takes the values
`2, ..., 2^31 - 1` in turn, so either the test `i <= k` fails before it wraps, or it
wraps to `-2^31` and the store at `f[-2^31]` is outside the table. -/
def fib_sequence (k : Int) : Option Nat :=
  let f := List.replicate (k + 2).toNat 0
  (store f 0 0).bind fun f =>
  (store f 1 1).bind fun f =>
  (fib_loop k (2 ^ 31) 2 f).bind fun f =>
  load_int f k

/-! ## `rev_str` -/

/-- The loop of `rev_str`: `n` iterations remain, `start` and `e` are the offsets of
the pointers `start` and `end` from `str`, `tmp` is the content of `tmp[0]`. -/
def rev_loop : Nat → List Nat → Nat → Nat → Nat → Option (List Nat)
  | 0, str, _, _, _ => some str
  | n + 1, str, start, e, tmp =>
    (load str start).bind fun x =>
    let tmp := (tmp &&& 0) ||| x
    (store str start (x &&& 0)).bind fun str =>
    (load str start).bind fun y =>
    (load str e).bind fun z =>
    (store str start (y ||| z)).bind fun str =>
    (load str e).bind fun z =>
    (store str e (z &&& 0)).bind fun str =>
    (load str e).bind fun z =>
    (store str e (z ||| tmp)).bind fun str =>
    rev_loop n str (start + 1) (e - 1) tmp

/-- The function `rev_str(str)`: the returned flag and the memory afterwards. -/
def rev_str (str : List Nat) : Option (Bool × List Nat) :=
  (strlen str).bind fun len =>
  let sz : Int := wrap32 (len : Int)
  if sz = 0 then some (false, str)
  else if sz = 1 then some (true, str)
  else
    let e : Int := 0 + sz - 1
    let sz : Int := sz / 2
    (rev_loop sz.toNat str 0 e.toNat 0).map fun str => (true, str)

/-! ## `fib_num_to_str` -/

/-- The loop `for (i = 0; i < size; i++) str[i] &= 0;`: `n` iterations remain. -/
def zero_fill : Nat → Nat → List Nat → Option (List Nat)
  | 0, _, str => some str
  | n + 1, i, str =>
    (load str i).bind fun b =>
    (store str i (b &&& 0)).bind fun str =>
    zero_fill n (i + 1) str

/-- The `switch (n_tmp)` of `fib_num_to_str`: the character that is or-ed into
`str[i]`, or `none` when no case matches. -/
def switch_digit : Nat → Option Nat
  | 9 => some 57
  | 8 => some 56
  | 7 => some 55
  | 6 => some 54
  | 5 => some 53
  | 4 => some 52
  | 3 => some 51
  | 2 => some 50
  | 1 => some 49
  | 0 => some 48
  | _ => none

/-- The `while (1)` loop of `fib_num_to_str`.  The flag of the result is `true` when
the loop is left through `break` and `false` when it is left through `return false`.
The first argument bounds the number of iterations; `n_tmp + 1` is always enough,
because `n_tmp / 10 < n_tmp` whenever the loop goes round again. -/
def digit_loop (size : Int) : Nat → List Nat → Nat → Nat → Option (Bool × List Nat)
  | 0, _, _, _ => none
  | fuel + 1, str, i, n_tmp =>
    let tmp := n_tmp / 10
    let n_tmp := sub64 (sub64 n_tmp (shl64 tmp 3)) (shl64 tmp 1)
    let written : Option (List Nat × Nat) :=
      match switch_digit n_tmp with
      | some ch =>
        (load str i).bind fun b => (store str i (b ||| ch)).map fun str => (str, i + 1)
      | none => some (str, i)
    written.bind fun w =>
      if tmp = 0 then some (true, w.1)
      else if (w.2 : Int) ≥ size then some (false, w.1)
      else digit_loop size fuel w.1 w.2 tmp

/-- The function `fib_num_to_str(str, size, n)`: the returned flag and the memory
afterwards (`n` is the value `*n`). -/
def fib_num_to_str (str : List Nat) (size : Int) (n : Nat) : Option (Bool × List Nat) :=
  if size = 0 then some (false, str)
  else
    (zero_fill size.toNat 0 str).bind fun str =>
    (digit_loop size (n + 1) str 0 n).bind fun r =>
      if r.1 = false then some (false, r.2)
      else (rev_str r.2).bind fun q =>
        if q.1 = false then some (false, q.2) else some (true, q.2)

/-! ## The device and its file operations -/

/-- The state of the device as seen by one open file: the mutex `fib_mutex`, the
static buffer `test_buf` and the file position `f_pos`. -/
structure Dev where
  /-- Whether `fib_mutex` is held. -/
  locked : Bool
  /-- The bytes of `test_buf`. -/
  test_buf : List Nat
  /-- The file position. -/
  f_pos : Int

/-- The function `fib_open`, with `mutex_trylock` taking the lock when it is free. -/
def fib_open (d : Dev) : Int × Dev :=
  if d.locked then (-EBUSY, d) else (0, ⟨true, d.test_buf, d.f_pos⟩)

/-- The function `fib_release`. -/
def fib_release (d : Dev) : Int × Dev := (0, ⟨false, d.test_buf, d.f_pos⟩)

/-- The bytes of the string literal in `fib_read`, without the terminating zero. -/
def read_message : List Nat :=
  "not enough buf size.".toList.map Char.toNat ++ [10]

/-- The function `fib_read`, called with `offset` pointing to the file position: the
returned value, the state afterwards and the 30 bytes handed to `copy_to_user`. -/
def fib_read (d : Dev) (_size : Nat) : Option (Int × Dev × List Nat) :=
  (fib_sequence d.f_pos).bind fun fib_n =>
  (fib_num_to_str d.test_buf 30 fib_n).bind fun r =>
  (if r.1 = false then strncpy r.2 read_message 30 else some r.2).bind fun buf =>
  some (to_ssize fib_n, ⟨d.locked, buf, d.f_pos⟩, buf.take 30)

/-- The part of `fib_read` that follows the call of `fib_num_to_str`, as a function of
the value `fib_n` and of the result `r` of that call: the `strncpy` of the message
when the call returned false, then `copy_to_user` and the `return`. -/
def fib_read_after (d : Dev) (fib_n : Nat) (r : Bool × List Nat) :
    Option (Int × Dev × List Nat) :=
  (if r.1 = false then strncpy r.2 read_message 30 else some r.2).bind fun buf =>
  some (to_ssize fib_n, ⟨d.locked, buf, d.f_pos⟩, buf.take 30)

/-- The function `fib_write`. -/
def fib_write (d : Dev) (_size : Nat) : Int × Dev := (1, d)

/-- The function `fib_device_lseek(file, offset, orig)`: the returned position and
the state afterwards. -/
def fib_device_lseek (d : Dev) (offset : Int) (orig : Int) : Int × Dev :=
  let new_pos : Int := 0
  let new_pos : Int :=
    if orig = 0 then offset
    else if orig = 1 then wrap64 (d.f_pos + offset)
    else if orig = 2 then wrap64 (MAX_LENGTH - offset)
    else new_pos
  let new_pos : Int := if new_pos > MAX_LENGTH then MAX_LENGTH else new_pos
  let new_pos : Int := if new_pos < 0 then 0 else new_pos
  (new_pos, ⟨d.locked, d.test_buf, new_pos⟩)

/-- A call made on an open file through the table `fib_fops`. -/
inductive Op where
  | seek (offset : Int) (orig : Int)
  | read (size : Nat)
  | write (size : Nat)

/-- A session: the calls of `ops` made in order on the state `d`.  The result is the
final state together with the list of the indices that `fib_read` handed to
`fib_sequence`, in order. -/
def run_session : Dev → List Op → Option (Dev × List Int)
  | d, [] => some (d, [])
  | d, Op.seek offset orig :: ops => run_session (fib_device_lseek d offset orig).2 ops
  | d, Op.read size :: ops =>
    (fib_read d size).bind fun r =>
    (run_session r.2.1 ops).map fun q => (q.1, d.f_pos :: q.2)
  | d, Op.write size :: ops => run_session (fib_write d size).2 ops

/-! ## The indices used by the loops -/

/-- The indices at which the zero-fill loop of `fib_num_to_str` stores, in order: `n`
iterations remain and `i` is the loop counter. -/
def zero_fill_indices : Nat → Nat → List Nat
  | 0, _ => []
  | n + 1, i => i :: zero_fill_indices n (i + 1)

/-- The indices at which the `while (1)` loop of `fib_num_to_str` stores a digit, in
order, with the arguments of `digit_loop`: each iteration whose `switch` has a matching
case stores at the current `i`. -/
def digit_loop_indices (size : Int) : Nat → Nat → Nat → List Nat
  | 0, _, _ => []
  | fuel + 1, i, n_tmp =>
    let tmp := n_tmp / 10
    let n_tmp := sub64 (sub64 n_tmp (shl64 tmp 3)) (shl64 tmp 1)
    let here : List Nat × Nat :=
      match switch_digit n_tmp with
      | some _ => ([i], i + 1)
      | none => ([], i)
    if tmp = 0 then here.1
    else if (here.2 : Int) ≥ size then here.1
    else here.1 ++ digit_loop_indices size fuel here.2 tmp

/-- The table indices that the loop of `fib_sequence(k)` uses, in order, with the
arguments of `fib_loop`: `f[i - 1]`, `f[i - 2]` and `f[i]` in each iteration. -/
def fib_loop_indices (k : Int) : Nat → Int → List Int
  | 0, _ => []
  | fuel + 1, i =>
    if i ≤ k then
      wrap32 (i - 1) :: wrap32 (i - 2) :: i :: fib_loop_indices k fuel (wrap32 (i + 1))
    else []

/-- The table indices that `fib_sequence(k)` uses, in order: `f[0]`, `f[1]`, those of
the loop, and `f[k]`. -/
def fib_sequence_indices (k : Int) : List Int :=
  0 :: 1 :: (fib_loop_indices k (2 ^ 31) 2 ++ [k])

/-! ## Reference notions used in the statements -/

/-- The decimal digits of `v`, least significant first and without leading zeros;
the number zero has the single digit `0`. -/
def lsd_digits (v : Nat) : List Nat := if v = 0 then [0] else Nat.digits 10 v

/-- The decimal text of `v` as ASCII codes, most significant digit first. -/
def decimal_text (v : Nat) : List Nat := ((lsd_digits v).map (48 + ·)).reverse

/-- The number of decimal digits of `v`. -/
def num_digits (v : Nat) : Nat := (lsd_digits v).length

/-- The reading of a list of ASCII decimal digits, most significant first, as a number. -/
def parse_decimal (bs : List Nat) : Nat := bs.foldl (fun acc b => acc * 10 + (b - 48)) 0

/-- The bytes of a buffer before its first zero byte. -/
def c_string (buf : List Nat) : List Nat := buf.takeWhile (· ≠ 0)

/-- The value `clamp(t, 0, 92)`. -/
def clamp_index (t : Int) : Int := max 0 (min t 92)

/-- The position a seek aims at before clamping, over the unbounded integers:
`offset`, `position + offset` or `92 - offset` for the modes 0, 1 and 2. -/
def seek_target (position offset orig : Int) : Int :=
  if orig = 0 then offset
  else if orig = 1 then position + offset
  else if orig = 2 then 92 - offset
  else 0

/-- The content of the result buffer after a successful read of the value `v`: the
decimal text of `v` followed by zero bytes up to the capacity of 30. -/
def result_buffer (v : Nat) : List Nat :=
  decimal_text v ++ List.replicate (30 - num_digits v) 0

/-! ## `adder` is wraparound addition -/

theorem and_mod_two_iff (x y : Nat) : (x &&& y) % 2 = 1 ↔ (x % 2 = 1 ∧ y % 2 = 1) := by
  simp only [Nat.mod_two_eq_one_iff_testBit_zero, Nat.testBit_and, Bool.and_eq_true]

theorem xor_add_two_mul_and (x y : Nat) : (x ^^^ y) + 2 * (x &&& y) = x + y := by
  induction x using Nat.strong_induction_on generalizing y with
  | _ x ih =>
    rcases Nat.eq_zero_or_pos x with rfl | hx
    · simp
    · have h := ih (x / 2) (Nat.div_lt_self hx (by decide)) (y / 2)
      have h1 : (x ^^^ y) / 2 = x / 2 ^^^ y / 2 := Nat.xor_div_two
      have h2 : (x &&& y) / 2 = x / 2 &&& y / 2 := Nat.and_div_two
      have h3 : (x ^^^ y) % 2 = (x + y) % 2 := Nat.xor_mod_two_eq
      have h4 := and_mod_two_iff x y
      rw [← h1, ← h2] at h
      omega

theorem two_pow_dvd_and (i x y : Nat) (h : 2 ^ i ∣ y) : 2 ^ i ∣ (x &&& y) := by
  rw [Nat.dvd_iff_mod_eq_zero] at h ⊢
  apply Nat.eq_of_testBit_eq
  intro j
  have := congrArg (fun t => Nat.testBit t j) h
  simp only [Nat.testBit_mod_two_pow, Nat.zero_testBit, Nat.testBit_and] at this ⊢
  by_cases hj : j < i <;> simp_all


theorem adder_step_inv (i T : Nat) (st : Nat × Nat × Nat × Nat) (hi : i < 64)
    (ha : st.2.2.1 < 2 ^ 64) (hb : st.2.2.2 < 2 ^ 64) (hd : 2 ^ i ∣ st.2.2.2)
    (hT : (st.2.2.1 + st.2.2.2) % 2 ^ 64 = T) :
    (adder_step st).2.2.1 < 2 ^ 64 ∧ (adder_step st).2.2.2 < 2 ^ 64 ∧
    2 ^ (i + 1) ∣ (adder_step st).2.2.2 ∧
    ((adder_step st).2.2.1 + (adder_step st).2.2.2) % 2 ^ 64 = T ∧
    (adder_step st).1 = (adder_step st).2.2.2 ∧ (adder_step st).2.1 = (adder_step st).2.2.1 := by
  obtain ⟨c, s, a1, b1⟩ := st
  refine ⟨?_, ?_, ?_, ?_, rfl, rfl⟩ <;> simp only [adder_step, shl64] at *
  · exact Nat.xor_lt_two_pow ha hb
  · exact Nat.mod_lt _ (by positivity)
  · have h1 : 2 ^ (i + 1) ∣ (a1 &&& b1) <<< 1 := by
      rw [Nat.shiftLeft_eq, pow_succ]
      exact Nat.mul_dvd_mul (two_pow_dvd_and i a1 b1 hd) (by simp)
    have h2 : 2 ^ (i + 1) ∣ 2 ^ 64 := Nat.pow_dvd_pow 2 (by omega)
    exact (Nat.dvd_mod_iff h2).2 h1
  · rw [Nat.add_mod_mod, Nat.shiftLeft_eq, pow_one, Nat.mul_comm, xor_add_two_mul_and]
    exact hT

theorem adder_loop_inv (n : Nat) : ∀ (i T : Nat) (st : Nat × Nat × Nat × Nat), i + n ≤ 64 →
    st.2.2.1 < 2 ^ 64 → st.2.2.2 < 2 ^ 64 → 2 ^ i ∣ st.2.2.2 →
    (st.2.2.1 + st.2.2.2) % 2 ^ 64 = T →
    (adder_loop n st).2.2.1 < 2 ^ 64 ∧ (adder_loop n st).2.2.2 < 2 ^ 64 ∧
    2 ^ (i + n) ∣ (adder_loop n st).2.2.2 ∧
    ((adder_loop n st).2.2.1 + (adder_loop n st).2.2.2) % 2 ^ 64 = T ∧
    (0 < n → (adder_loop n st).1 = (adder_loop n st).2.2.2 ∧
      (adder_loop n st).2.1 = (adder_loop n st).2.2.1) := by
  induction n with
  | zero => intro i T st _ ha hb hd hT; exact ⟨ha, hb, hd, hT, fun h => absurd h (by decide)⟩
  | succ n ih =>
    intro i T st hin ha hb hd hT
    obtain ⟨h1, h2, h3, h4, h5, h6⟩ := adder_step_inv i T st (by omega) ha hb hd hT
    obtain ⟨k1, k2, k3, k4, k5⟩ := ih (i + 1) T (adder_step st) (by omega) h1 h2 h3 h4
    refine ⟨k1, k2, ?_, k4, fun _ => ?_⟩
    · have : i + (n + 1) = i + 1 + n := by omega
      rw [this]; exact k3
    · rcases Nat.eq_zero_or_pos n with rfl | hn
      · exact ⟨h5, h6⟩
      · exact k5 hn

theorem adder_spec (c s a b : Nat) (ha : a < 2 ^ 64) (hb : b < 2 ^ 64) :
    adder c s a b = (0, (a + b) % 2 ^ 64) := by
  obtain ⟨k1, k2, k3, k4, k5⟩ :=
    adder_loop_inv 64 0 ((a + b) % 2 ^ 64) (c, s, a, b) (by omega) ha hb (by simp) rfl
  obtain ⟨k6, k7⟩ := k5 (by decide)
  have hc : (adder_loop 64 (c, s, a, b)).2.2.2 = 0 := by
    have := Nat.eq_zero_of_dvd_of_lt k3 (by simpa using k2)
    exact this
  rw [hc] at k4 k6
  simp only [Nat.add_zero] at k4
  rw [Nat.mod_eq_of_lt k1] at k4
  simp only [adder]
  rw [k6, k7, k4]

/-! ## Memory lemmas -/

theorem load_append_left (A B : List Nat) (i : Nat) (h : i < A.length) :
    load (A ++ B) i = A[i]? := by
  simp [load, List.getElem?_append_left h]

theorem load_append_cons (A B : List Nat) (x : Nat) : load (A ++ x :: B) A.length = some x := by
  rw [load, List.getElem?_append_right (le_refl _)]; simp

theorem store_append_cons (A B : List Nat) (x v : Nat) :
    store (A ++ x :: B) A.length v = some (A ++ v :: B) := by
  simp [store]

/-! ## `fib_sequence` -/

/-- The first `i` Fibonacci numbers, reduced modulo `2 ^ 64`. -/
theorem fib_table_succ (i : Nat) :
    (List.range (i + 1)).map (fun j => Nat.fib j % 2 ^ 64) =
      (List.range i).map (fun j => Nat.fib j % 2 ^ 64) ++ [Nat.fib i % 2 ^ 64] := by
  simp [List.range_succ]

theorem fib_table_get (i j : Nat) (h : j < i) :
    ((List.range i).map (fun j => Nat.fib j % 2 ^ 64))[j]? = some (Nat.fib j % 2 ^ 64) := by
  simp [List.getElem?_map, List.getElem?_range h]

theorem load_int_natCast (m : List Nat) (j : Nat) : load_int m (j : Int) = load m j := by
  unfold load_int
  rw [if_pos (Int.ofNat_nonneg j), Int.toNat_ofNat]

theorem store_int_natCast (m : List Nat) (j v : Nat) :
    store_int m (j : Int) v = store m j v := by
  unfold store_int
  rw [if_pos (Int.ofNat_nonneg j), Int.toNat_ofNat]

theorem store_int_neg (m : List Nat) (j : Int) (v : Nat) (h : j < 0) :
    store_int m j v = none := by
  unfold store_int
  rw [if_neg (by omega)]

theorem wrap32_of_range (x : Int) (h1 : -2 ^ 31 ≤ x) (h2 : x < 2 ^ 31) : wrap32 x = x := by
  unfold wrap32
  omega

theorem wrap32_two_pow_31 : wrap32 (2 ^ 31 - 1 + 1) = -2 ^ 31 := by
  unfold wrap32
  decide

theorem fib_loop_exit (k : Int) (fuel : Nat) (i : Int) (f : List Nat) (h : ¬ i ≤ k) :
    fib_loop k (fuel + 1) i f = some f := by
  rw [fib_loop, if_neg h]

theorem fib_loop_spec (k : Int) (hk : k < 2 ^ 31 - 1) (n : Nat) : ∀ (fuel i r : Nat), 2 ≤ i →
    k = (i : Int) + (n : Int) - 1 → n < fuel →
    fib_loop k fuel (i : Int)
        ((List.range i).map (fun j => Nat.fib j % 2 ^ 64) ++ List.replicate (n + r) 0) =
      some ((List.range (i + n)).map (fun j => Nat.fib j % 2 ^ 64) ++ List.replicate r 0) := by
  induction n with
  | zero =>
    intro fuel i r _ hki hf
    obtain ⟨fuel, rfl⟩ : ∃ g, fuel = g + 1 := ⟨fuel - 1, by omega⟩
    rw [fib_loop_exit k fuel _ _ (by omega), Nat.zero_add, Nat.add_zero]
  | succ n ih =>
    intro fuel i r hi hki hf
    obtain ⟨fuel, rfl⟩ : ∃ g, fuel = g + 1 := ⟨fuel - 1, by omega⟩
    have hlen : ((List.range i).map (fun j => Nat.fib j % 2 ^ 64)).length = i := by simp
    have h1 : load ((List.range i).map (fun j => Nat.fib j % 2 ^ 64) ++
        List.replicate (n + 1 + r) 0) (i - 1) = some (Nat.fib (i - 1) % 2 ^ 64) := by
      rw [load_append_left _ _ _ (by rw [hlen]; omega)]
      exact fib_table_get i (i - 1) (by omega)
    have h2 : load ((List.range i).map (fun j => Nat.fib j % 2 ^ 64) ++
        List.replicate (n + 1 + r) 0) (i - 2) = some (Nat.fib (i - 2) % 2 ^ 64) := by
      rw [load_append_left _ _ _ (by rw [hlen]; omega)]
      exact fib_table_get i (i - 2) (by omega)
    have h3 : (adder 0 0 (Nat.fib (i - 1) % 2 ^ 64) (Nat.fib (i - 2) % 2 ^ 64)).2 =
        Nat.fib i % 2 ^ 64 := by
      rw [adder_spec _ _ _ _ (Nat.mod_lt _ (by positivity)) (Nat.mod_lt _ (by positivity))]
      obtain ⟨j, rfl⟩ : ∃ j, i = j + 2 := ⟨i - 2, by omega⟩
      simp only [Nat.add_sub_cancel, show j + 2 - 1 = j + 1 by omega]
      rw [Nat.fib_add_two, ← Nat.add_mod, Nat.add_comm]
    have h4 : List.replicate (n + 1 + r) 0 = 0 :: List.replicate (n + r) 0 := by
      rw [show n + 1 + r = (n + r) + 1 by omega, List.replicate_succ]
    have h5 : store ((List.range i).map (fun j => Nat.fib j % 2 ^ 64) ++
        List.replicate (n + 1 + r) 0) i (Nat.fib i % 2 ^ 64) =
        some ((List.range (i + 1)).map (fun j => Nat.fib j % 2 ^ 64) ++
          List.replicate (n + r) 0) := by
      rw [h4, fib_table_succ, List.append_assoc]
      have := store_append_cons ((List.range i).map (fun j => Nat.fib j % 2 ^ 64))
        (List.replicate (n + r) 0) 0 (Nat.fib i % 2 ^ 64)
      rw [hlen] at this
      simpa using this
    have w1 : wrap32 ((i : Int) - 1) = ((i - 1 : Nat) : Int) := by
      rw [wrap32_of_range _ (by omega) (by omega)]; omega
    have w2 : wrap32 ((i : Int) - 2) = ((i - 2 : Nat) : Int) := by
      rw [wrap32_of_range _ (by omega) (by omega)]; omega
    have w3 : wrap32 ((i : Int) + 1) = ((i + 1 : Nat) : Int) := by
      rw [wrap32_of_range _ (by omega) (by omega)]; omega
    have h6 : store_int ((List.range i).map (fun j => Nat.fib j % 2 ^ 64) ++
        List.replicate (n + 1 + r) 0) (i : Int) (Nat.fib i % 2 ^ 64) =
        some ((List.range (i + 1)).map (fun j => Nat.fib j % 2 ^ 64) ++
          List.replicate (n + r) 0) := by
      rw [store_int_natCast]; exact h5
    rw [fib_loop, if_pos (by omega), w1, w2, w3, load_int_natCast, load_int_natCast, h1, h2]
    simp only [Option.some_bind, h3, h6]
    rw [ih fuel (i + 1) r (Nat.le_succ_of_le hi) (by omega) (Nat.lt_of_succ_lt_succ hf),
      Nat.add_right_comm i 1 n]
    rfl

theorem fib_sequence_eq (k : Nat) (hk : (k : Int) < 2 ^ 31 - 1) :
    fib_sequence (k : Int) = some (Nat.fib k % 2 ^ 64) := by
  have e1 : ((k : Int) + 2).toNat = k + 2 := by omega
  have h0 : ∀ m : Nat, (store (List.replicate (m + 2) 0) 0 0).bind (fun f => store f 1 1) =
      some ((List.range 2).map (fun j => Nat.fib j % 2 ^ 64) ++ List.replicate m 0) := by
    intro m
    simp [store, List.replicate_succ, List.range_succ]
  have hfuel : (2 : Nat) ^ 31 = 2147483647 + 1 := by norm_num
  unfold fib_sequence
  simp only [e1]
  rw [← Option.bind_assoc, h0]
  simp only [Option.some_bind, load_int_natCast]
  rcases Nat.lt_or_ge k 2 with hk2 | hk2
  · rw [hfuel, fib_loop_exit _ _ _ _ (by omega)]
    simp only [Option.some_bind]
    rw [load_append_left _ _ _ (by simpa using hk2)]
    exact fib_table_get 2 k hk2
  · have := fib_loop_spec (k : Int) hk (k - 1) (2 ^ 31) 2 1 (le_refl 2) (by omega) (by omega)
    rw [show k - 1 + 1 = k by omega, show 2 + (k - 1) = k + 1 by omega] at this
    rw [show ((2 : Nat) : Int) = 2 from rfl] at this
    rw [this]
    simp only [Option.some_bind]
    rw [load_append_left _ _ _ (by simp)]
    exact fib_table_get (k + 1) k (by omega)

theorem fib_sequence_neg (k : Int) (h : k < 0) : fib_sequence k = none := by
  unfold fib_sequence
  rcases lt_or_le k (-1) with h1 | h1
  · have : (k + 2).toNat = 0 := by omega
    simp [this, store]
  · have : (k + 2).toNat = 1 := by omega
    simp [this, store]

theorem fib_loop_wrapped (k : Int) (hk : -2 ^ 31 ≤ k) (fuel : Nat) (f : List Nat) :
    fib_loop k fuel (-2 ^ 31) f = none := by
  cases fuel with
  | zero => rfl
  | succ fuel =>
    rw [fib_loop, if_pos hk]
    cases load_int f (wrap32 (-2 ^ 31 - 1)) with
    | none => rfl
    | some x =>
      cases load_int f (wrap32 (-2 ^ 31 - 2)) with
      | none => rfl
      | some y =>
        simp only [Option.some_bind]
        rw [store_int_neg _ _ _ (by decide)]
        rfl

theorem fib_loop_fault (k : Int) (hk : 2 ^ 31 - 1 ≤ k) (m : Nat) :
    ∀ (fuel : Nat) (i : Int) (f : List Nat), 0 ≤ i → i + (m : Int) = 2 ^ 31 - 1 →
      fib_loop k fuel i f = none := by
  induction m with
  | zero =>
    intro fuel i f _ hi
    have hi' : i = 2 ^ 31 - 1 := by omega
    subst hi'
    cases fuel with
    | zero => rfl
    | succ fuel =>
      rw [fib_loop, if_pos hk, wrap32_two_pow_31]
      cases load_int f (wrap32 (2 ^ 31 - 1 - 1)) with
      | none => rfl
      | some x =>
        cases load_int f (wrap32 (2 ^ 31 - 1 - 2)) with
        | none => rfl
        | some y =>
          simp only [Option.some_bind]
          cases store_int f (2 ^ 31 - 1) (adder 0 0 x y).2 with
          | none => rfl
          | some g =>
            simp only [Option.some_bind]
            exact fib_loop_wrapped k (by omega) fuel g
  | succ m ih =>
    intro fuel i f h0 hi
    cases fuel with
    | zero => rfl
    | succ fuel =>
      rw [fib_loop, if_pos (by omega), wrap32_of_range (i + 1) (by omega) (by omega)]
      cases load_int f (wrap32 (i - 1)) with
      | none => rfl
      | some x =>
        cases load_int f (wrap32 (i - 2)) with
        | none => rfl
        | some y =>
          simp only [Option.some_bind]
          cases store_int f i (adder 0 0 x y).2 with
          | none => rfl
          | some g =>
            simp only [Option.some_bind]
            exact ih fuel (i + 1) g (by omega) (by omega)

theorem fib_sequence_big (k : Int) (hk : 2 ^ 31 - 1 ≤ k) : fib_sequence k = none := by
  unfold fib_sequence
  dsimp only
  cases store (List.replicate (k + 2).toNat 0) 0 0 with
  | none => rfl
  | some f =>
    simp only [Option.some_bind]
    cases store f 1 1 with
    | none => rfl
    | some g =>
      simp only [Option.some_bind]
      rw [fib_loop_fault k hk (2 ^ 31 - 3) (2 ^ 31) 2 g (by decide) (by norm_num)]
      rfl

theorem fib_sequence_lt (k : Int) (v : Nat) (h : fib_sequence k = some v) : v < 2 ^ 64 := by
  rcases lt_or_le k 0 with hk | hk
  · rw [fib_sequence_neg k hk] at h
    exact absurd h (by simp)
  · rcases lt_or_le k (2 ^ 31 - 1) with hb | hb
    · have hk' : k = ((k.toNat : Nat) : Int) := by omega
      rw [hk', fib_sequence_eq _ (by omega)] at h
      have := Option.some.inj h
      rw [← this]
      exact Nat.mod_lt _ (by positivity)
    · rw [fib_sequence_big k hb] at h
      exact absurd h (by simp)

theorem fib_lt_of_le_92 (k : Nat) (h : k ≤ 92) : Nat.fib k < 2 ^ 63 := by
  have h1 : Nat.fib k ≤ Nat.fib 92 := Nat.fib_mono h
  have h2 : Nat.fib 92 = 7540113804746346429 := by norm_num [Nat.fib]
  omega

/-! ## The decimal encoder -/

theorem lsd_digits_step (m : Nat) :
    lsd_digits m = (m % 10) :: (if m / 10 = 0 then [] else lsd_digits (m / 10)) := by
  unfold lsd_digits
  rcases Nat.eq_zero_or_pos m with rfl | hm
  · simp
  · rw [if_neg (by omega), Nat.digits_def' (by decide) hm]
    by_cases h : m / 10 = 0
    · simp [h]
    · simp [h]

theorem num_digits_pos (m : Nat) : 1 ≤ num_digits m := by
  unfold num_digits
  rw [lsd_digits_step]
  simp

theorem num_digits_step (m : Nat) (h : m / 10 ≠ 0) : num_digits m = num_digits (m / 10) + 1 := by
  unfold num_digits
  rw [lsd_digits_step m, if_neg h]
  simp

theorem num_digits_of_lt (m : Nat) (h : m / 10 = 0) : num_digits m = 1 := by
  unfold num_digits
  rw [lsd_digits_step m, if_pos h]
  simp

theorem digit_arith (m : Nat) (h : m < 2 ^ 64) :
    sub64 (sub64 m (shl64 (m / 10) 3)) (shl64 (m / 10) 1) = m % 10 := by
  simp only [sub64, shl64, Nat.shiftLeft_eq]
  norm_num
  omega

theorem switch_digit_lt (d : Nat) (h : d < 10) : switch_digit d = some (48 + d) := by
  interval_cases d <;> rfl

theorem zero_fill_spec (n : Nat) : ∀ (A Z B : List Nat), Z.length = n →
    zero_fill n A.length (A ++ Z ++ B) = some (A ++ List.replicate n 0 ++ B) := by
  induction n with
  | zero =>
    intro A Z B hZ
    have : Z = [] := List.length_eq_zero.mp hZ
    simp [zero_fill, this]
  | succ n ih =>
    intro A Z B hZ
    obtain ⟨z, Z', rfl⟩ : ∃ z Z', Z = z :: Z' := by
      cases Z with
      | nil => simp at hZ
      | cons z Z' => exact ⟨z, Z', rfl⟩
    have hZ' : Z'.length = n := by simpa using hZ
    have e1 : A ++ z :: Z' ++ B = A ++ z :: (Z' ++ B) := by simp
    rw [zero_fill, e1, load_append_cons, Option.some_bind, store_append_cons, Option.some_bind]
    have := ih (A ++ [z &&& 0]) Z' B hZ'
    simp only [List.length_append, List.length_singleton, List.append_assoc,
      List.singleton_append, List.cons_append, List.nil_append] at this
    rw [this]
    simp [List.replicate_succ]

theorem digit_loop_ok (size : Int) (fuel : Nat) : ∀ (m z : Nat) (A B : List Nat),
    m < fuel → m < 2 ^ 64 → size = (A.length : Int) + (z : Int) → num_digits m ≤ z →
    digit_loop size fuel (A ++ List.replicate z 0 ++ B) A.length m =
      some (true, A ++ (lsd_digits m).map (48 + ·) ++
        List.replicate (z - num_digits m) 0 ++ B) := by
  induction fuel with
  | zero => intro m z A B h; omega
  | succ fuel ih =>
    intro m z A B hf hm hsz hd
    have hz : 1 ≤ z := le_trans (num_digits_pos m) hd
    obtain ⟨z', rfl⟩ : ∃ z', z = z' + 1 := ⟨z - 1, by omega⟩
    have e1 : A ++ List.replicate (z' + 1) 0 ++ B = A ++ 0 :: (List.replicate z' 0 ++ B) := by
      simp [List.replicate_succ]
    rw [digit_loop]
    simp only [digit_arith m hm, switch_digit_lt (m % 10) (Nat.mod_lt _ (by decide))]
    rw [e1, load_append_cons, Option.some_bind, store_append_cons]
    simp only [Option.map_some', Option.some_bind, Nat.zero_or]
    by_cases h0 : m / 10 = 0
    · rw [if_pos h0]
      have hl := lsd_digits_step m
      rw [if_pos h0] at hl
      rw [hl, num_digits_of_lt m h0]
      simp
    · rw [if_neg h0]
      have hstep := num_digits_step m h0
      have hz' : num_digits (m / 10) ≤ z' := by omega
      have hnot : ¬ (((A.length + 1 : Nat) : Int) ≥ size) := by
        have := num_digits_pos (m / 10)
        rw [hsz]; push_cast; omega
      rw [if_neg hnot]
      have := ih (m / 10) z' (A ++ [48 + m % 10]) B (by omega) (by omega)
        (by rw [hsz]; simp; omega) hz'
      simp only [List.length_append, List.length_singleton, List.append_assoc,
        List.singleton_append, List.cons_append, List.nil_append] at this
      rw [this]
      have hl := lsd_digits_step m
      rw [if_neg h0] at hl
      rw [hl, hstep]
      simp

theorem digit_loop_fail (size : Int) (fuel : Nat) : ∀ (m z : Nat) (A B : List Nat),
    m < fuel → m < 2 ^ 64 → size = (A.length : Int) + (z : Int) → 1 ≤ z → z < num_digits m →
    ∃ str, digit_loop size fuel (A ++ List.replicate z 0 ++ B) A.length m =
      some (false, str) := by
  induction fuel with
  | zero => intro m z A B h; omega
  | succ fuel ih =>
    intro m z A B hf hm hsz hz hd
    obtain ⟨z', rfl⟩ : ∃ z', z = z' + 1 := ⟨z - 1, by omega⟩
    have e1 : A ++ List.replicate (z' + 1) 0 ++ B = A ++ 0 :: (List.replicate z' 0 ++ B) := by
      simp [List.replicate_succ]
    have h0 : m / 10 ≠ 0 := by
      intro h0
      have := num_digits_of_lt m h0
      omega
    have hstep := num_digits_step m h0
    rw [digit_loop]
    simp only [digit_arith m hm, switch_digit_lt (m % 10) (Nat.mod_lt _ (by decide))]
    rw [e1, load_append_cons, Option.some_bind, store_append_cons]
    simp only [Option.map_some', Option.some_bind, Nat.zero_or]
    rw [if_neg h0]
    by_cases hz0 : z' = 0
    · subst hz0
      rw [if_pos (by rw [hsz]; push_cast; omega)]
      exact ⟨_, rfl⟩
    · rw [if_neg (by rw [hsz]; push_cast; omega)]
      have := ih (m / 10) z' (A ++ [48 + m % 10]) B (by omega) (by omega)
        (by rw [hsz]; simp; omega) (by omega) (by omega)
      simp only [List.length_append, List.length_singleton, List.append_assoc,
        List.singleton_append, List.cons_append, List.nil_append] at this
      exact this

theorem num_digits_le_iff (k : Nat) : ∀ m : Nat, num_digits m ≤ k + 1 ↔ m < 10 ^ (k + 1) := by
  induction k with
  | zero =>
    intro m
    by_cases h0 : m / 10 = 0
    · rw [num_digits_of_lt m h0]; simp; omega
    · rw [num_digits_step m h0]
      have := num_digits_pos (m / 10)
      simp; omega
  | succ k ih =>
    intro m
    by_cases h0 : m / 10 = 0
    · rw [num_digits_of_lt m h0]
      have : (10 : Nat) ^ 1 ≤ 10 ^ (k + 1 + 1) := Nat.pow_le_pow_right (by decide) (by omega)
      constructor
      · intro _; omega
      · intro _; omega
    · rw [num_digits_step m h0, Nat.add_le_add_iff_right, ih (m / 10),
        Nat.div_lt_iff_lt_mul (by decide), ← pow_succ]

theorem num_digits_le_20 (m : Nat) (h : m < 2 ^ 64) : num_digits m ≤ 20 := by
  rw [num_digits_le_iff 19 m]
  exact lt_trans h (by norm_num)

theorem lsd_digits_lt (m : Nat) : ∀ d ∈ lsd_digits m, d < 10 := by
  intro d hd
  unfold lsd_digits at hd
  split at hd
  · simp at hd; omega
  · exact Nat.digits_lt_base (by decide) hd

theorem strlen_spec (A B : List Nat) (h : ∀ a ∈ A, a ≠ 0) :
    strlen (A ++ 0 :: B) = some A.length := by
  induction A with
  | nil => simp [strlen]
  | cons a A ih =>
    have ha : a ≠ 0 := h a (by simp)
    have hA : ∀ a ∈ A, a ≠ 0 := fun x hx => h x (by simp [hx])
    simp [strlen, ha, ih hA]

theorem load_at (A B : List Nat) (x i : Nat) (h : i = A.length) :
    load (A ++ x :: B) i = some x := by
  subst h; exact load_append_cons A B x

theorem store_at (A B : List Nat) (x v i : Nat) (h : i = A.length) :
    store (A ++ x :: B) i v = some (A ++ v :: B) := by
  subst h; exact store_append_cons A B x v

theorem rev_loop_swap (n : Nat) (P M Q : List Nat) (x y tmp : Nat) :
    rev_loop (n + 1) (P ++ x :: (M ++ y :: Q)) P.length (P.length + M.length + 1) tmp =
      rev_loop n (P ++ y :: (M ++ x :: Q)) (P.length + 1) (P.length + M.length) x := by
  have a1 : ∀ u v : Nat, P ++ u :: (M ++ v :: Q) = (P ++ u :: M) ++ v :: Q := by
    intro u v; simp
  have hl : ∀ u : Nat, P.length + M.length + 1 = (P ++ u :: M).length := by
    intro u; simp; omega
  rw [rev_loop]
  rw [load_at P _ x _ rfl]
  simp only [Option.some_bind, Nat.and_zero, Nat.zero_or]
  rw [store_at P _ x 0 _ rfl]
  simp only [Option.some_bind]
  rw [load_at P _ 0 _ rfl]
  simp only [Option.some_bind]
  rw [a1 0 y, load_at (P ++ 0 :: M) Q y _ (hl 0)]
  simp only [Option.some_bind, Nat.zero_or]
  rw [← a1 0 y, store_at P _ 0 y _ rfl]
  simp only [Option.some_bind]
  rw [a1 y y, load_at (P ++ y :: M) Q y _ (hl y)]
  simp only [Option.some_bind, Nat.and_zero]
  rw [store_at (P ++ y :: M) Q y 0 _ (hl y)]
  simp only [Option.some_bind]
  rw [load_at (P ++ y :: M) Q 0 _ (hl y)]
  simp only [Option.some_bind, Nat.zero_or]
  rw [store_at (P ++ y :: M) Q 0 x _ (hl y)]
  simp only [Option.some_bind]
  rw [← a1 y x, Nat.add_sub_cancel]


theorem rev_loop_spec (n : Nat) : ∀ (P M Q : List Nat) (tmp : Nat), M.length / 2 = n →
    rev_loop n (P ++ M ++ Q) P.length (P.length + M.length - 1) tmp =
      some (P ++ M.reverse ++ Q) := by
  induction n with
  | zero =>
    intro P M Q tmp h
    have hM : M.reverse = M := by
      match M, h with
      | [], _ => rfl
      | [a], _ => rfl
      | a :: b :: M', h => simp at h; omega
    rw [rev_loop, hM]
  | succ n ih =>
    intro P M Q tmp h
    obtain ⟨x, M1, rfl⟩ : ∃ x M1, M = x :: M1 := by
      cases M with
      | nil => simp at h
      | cons x M1 => exact ⟨x, M1, rfl⟩
    rcases List.eq_nil_or_concat M1 with rfl | ⟨M', y, rfl⟩
    · have : ([x] : List Nat).length = 1 := rfl
      rw [this] at h
      omega
    · simp only [List.concat_eq_append] at h ⊢
      have hM' : M'.length / 2 = n := by
        simp at h; omega
      have e1 : P ++ x :: (M' ++ [y]) ++ Q = P ++ x :: (M' ++ y :: Q) := by simp
      have e2 : P.length + (x :: (M' ++ [y])).length - 1 = P.length + M'.length + 1 := by
        simp only [List.length_cons, List.length_append, List.length_nil]; omega
      rw [e1, e2, rev_loop_swap]
      have := ih (P ++ [y]) M' (x :: Q) x hM'
      have e3 : (P ++ [y]).length + M'.length - 1 = P.length + M'.length := by
        simp only [List.length_append, List.length_singleton]; omega
      rw [e3] at this
      simp only [List.length_append, List.length_singleton, List.append_assoc,
        List.singleton_append, List.cons_append, List.nil_append] at this
      rw [this]
      simp

theorem wrap32_of_lt (n : Nat) (h : n < 2 ^ 31) : wrap32 (n : Int) = (n : Int) := by
  unfold wrap32
  omega

theorem rev_str_spec (A B : List Nat) (hne : A ≠ []) (h0 : ∀ a ∈ A, a ≠ 0)
    (hlen : A.length < 2 ^ 31) :
    rev_str (A ++ 0 :: B) = some (true, A.reverse ++ 0 :: B) := by
  have hpos : 0 < A.length := List.length_pos.mpr hne
  have hw := wrap32_of_lt A.length hlen
  unfold rev_str
  rw [strlen_spec A B h0, Option.some_bind]
  dsimp only
  rw [hw]
  rw [if_neg (by omega)]
  by_cases h1 : (A.length : Int) = 1
  · rw [if_pos h1]
    have : A.length = 1 := by omega
    obtain ⟨a, rfl⟩ := List.length_eq_one.mp this
    rfl
  · rw [if_neg h1]
    have e1 : ((A.length : Int) / 2).toNat = A.length / 2 := by omega
    have e2 : (0 + (A.length : Int) - 1).toNat = A.length - 1 := by omega
    rw [e1, e2]
    have := rev_loop_spec (A.length / 2) [] A (0 :: B) 0 rfl
    simp only [List.nil_append, List.length_nil, Nat.zero_add] at this
    rw [this]
    rfl

theorem zero_fill_buffer (c : Nat) (str : List Nat) (h : c ≤ str.length) :
    zero_fill c 0 str = some (List.replicate c 0 ++ str.drop c) := by
  have h1 : (str.take c).length = c := by rw [List.length_take]; omega
  have := zero_fill_spec c [] (str.take c) (str.drop c) h1
  simp only [List.nil_append, List.length_nil, List.take_append_drop] at this
  exact this

theorem digit_text_ne_zero (n : Nat) : ∀ a ∈ (lsd_digits n).map (48 + ·), a ≠ 0 := by
  intro a ha
  rw [List.mem_map] at ha
  obtain ⟨d, _, rfl⟩ := ha
  omega

theorem fib_num_to_str_ok (str : List Nat) (c n : Nat) (hn : n < 2 ^ 64)
    (hc : c ≤ str.length) (hd : num_digits n < c) :
    fib_num_to_str str (c : Int) n =
      some (true, decimal_text n ++ List.replicate (c - num_digits n) 0 ++ str.drop c) := by
  have hpos := num_digits_pos n
  unfold fib_num_to_str
  rw [if_neg (by omega), Int.toNat_ofNat, zero_fill_buffer c str hc, Option.some_bind]
  have hloop := digit_loop_ok (c : Int) (n + 1) n c [] (str.drop c) (by omega) hn
    (by simp) (by omega)
  simp only [List.nil_append, List.length_nil] at hloop
  rw [hloop, Option.some_bind]
  dsimp only
  rw [if_neg (by decide)]
  have hrep : List.replicate (c - num_digits n) 0 =
      0 :: List.replicate (c - num_digits n - 1) 0 := by
    rw [← List.replicate_succ]
    congr 1
    omega
  have hlen : ((lsd_digits n).map (48 + ·)).length < 2 ^ 31 := by
    rw [List.length_map]
    have := num_digits_le_20 n hn
    unfold num_digits at this
    exact lt_of_le_of_lt this (by norm_num)
  have hne : (lsd_digits n).map (48 + ·) ≠ [] := by
    intro h
    have := congrArg List.length h
    rw [List.length_map] at this
    unfold num_digits at hpos
    simp only [List.length_nil] at this
    omega
  have hrev := rev_str_spec ((lsd_digits n).map (48 + ·))
    (List.replicate (c - num_digits n - 1) 0 ++ str.drop c) hne (digit_text_ne_zero n) hlen
  rw [hrep, List.append_assoc, List.cons_append, hrev, Option.some_bind]
  dsimp only
  rw [if_neg (by decide)]
  unfold decimal_text
  simp only [List.append_assoc, List.cons_append]

theorem fib_num_to_str_fail (str : List Nat) (c n : Nat) (hn : n < 2 ^ 64)
    (hc : c ≤ str.length) (hc1 : 1 ≤ c) (hd : c < num_digits n) :
    ∃ str1, fib_num_to_str str (c : Int) n = some (false, str1) := by
  unfold fib_num_to_str
  rw [if_neg (by omega), Int.toNat_ofNat, zero_fill_buffer c str hc, Option.some_bind]
  obtain ⟨s1, hs1⟩ := digit_loop_fail (c : Int) (n + 1) n c [] (str.drop c) (by omega) hn
    (by simp) hc1 hd
  simp only [List.nil_append, List.length_nil] at hs1
  rw [hs1, Option.some_bind]
  exact ⟨s1, rfl⟩

/-! ## The read path -/

theorem to_ssize_of_lt (v : Nat) (h : v < 2 ^ 63) : to_ssize v = (v : Int) := by
  unfold to_ssize wrap64
  omega

theorem result_buffer_length (v : Nat) (h : v < 2 ^ 64) : (result_buffer v).length = 30 := by
  have h1 := num_digits_le_20 v h
  unfold result_buffer decimal_text
  rw [List.length_append, List.length_reverse, List.length_map, List.length_replicate]
  unfold num_digits at *
  omega

theorem fib_num_to_str_30 (buf : List Nat) (v : Nat) (hv : v < 2 ^ 64)
    (hbuf : buf.length = 30) :
    fib_num_to_str buf 30 v = some (true, result_buffer v) := by
  have h1 := num_digits_le_20 v hv
  have := fib_num_to_str_ok buf 30 v hv (by omega) (by omega)
  have hdrop : buf.drop 30 = [] := List.drop_eq_nil_of_le (by omega)
  rw [hdrop, List.append_nil] at this
  exact this

theorem fib_read_spec (d : Dev) (size k : Nat) (hpos : d.f_pos = (k : Int))
    (hk : (k : Int) < 2 ^ 31 - 1) (hbuf : d.test_buf.length = 30) :
    fib_read d size =
      some (to_ssize (Nat.fib k % 2 ^ 64),
        ⟨d.locked, result_buffer (Nat.fib k % 2 ^ 64), d.f_pos⟩,
        result_buffer (Nat.fib k % 2 ^ 64)) := by
  have hv : Nat.fib k % 2 ^ 64 < 2 ^ 64 := Nat.mod_lt _ (by positivity)
  unfold fib_read
  rw [hpos, fib_sequence_eq k hk, Option.some_bind, fib_num_to_str_30 _ _ hv hbuf,
    Option.some_bind]
  dsimp only
  rw [if_neg (by decide), Option.some_bind]
  have hl := result_buffer_length _ hv
  rw [List.take_of_length_le (by omega)]

theorem c_string_result_buffer (v : Nat) (h : v < 2 ^ 64) :
    c_string (result_buffer v) = decimal_text v := by
  have h1 := num_digits_le_20 v h
  unfold c_string result_buffer
  have hrep : List.replicate (30 - num_digits v) 0 =
      0 :: List.replicate (30 - num_digits v - 1) 0 := by
    rw [← List.replicate_succ]
    congr 1
    omega
  rw [hrep, List.takeWhile_append_of_pos]
  · simp
  · intro a ha
    unfold decimal_text at ha
    rw [List.mem_reverse] at ha
    have := digit_text_ne_zero v a ha
    simpa using this

theorem parse_decimal_text (v : Nat) : parse_decimal (decimal_text v) = v := by
  have key : ∀ L : List Nat, (∀ d ∈ L, d < 10) →
      List.foldr (fun b acc => acc * 10 + (b - 48)) 0 (L.map (48 + ·)) = Nat.ofDigits 10 L := by
    intro L
    induction L with
    | nil => intro _; rfl
    | cons d L ih =>
      intro h
      have := ih (fun x hx => h x (by simp [hx]))
      simp only [List.map_cons, List.foldr_cons, Nat.ofDigits_cons, this]
      omega
  unfold parse_decimal decimal_text
  rw [List.foldl_reverse, key _ (lsd_digits_lt v)]
  unfold lsd_digits
  split
  · subst_vars; rfl
  · exact Nat.ofDigits_digits 10 v

/-! ## The cursor -/

theorem wrap64_of_range (x : Int) (h1 : -2 ^ 63 ≤ x) (h2 : x < 2 ^ 63) : wrap64 x = x := by
  unfold wrap64
  omega

theorem lseek_range (d : Dev) (offset orig : Int) :
    0 ≤ (fib_device_lseek d offset orig).1 ∧ (fib_device_lseek d offset orig).1 ≤ 92 ∧
    (fib_device_lseek d offset orig).2.f_pos = (fib_device_lseek d offset orig).1 ∧
    (fib_device_lseek d offset orig).2.test_buf = d.test_buf ∧
    (fib_device_lseek d offset orig).2.locked = d.locked := by
  unfold fib_device_lseek MAX_LENGTH
  dsimp only
  refine ⟨?_, ?_, rfl, rfl, rfl⟩
  · split <;> split <;> omega
  · split <;> split <;> omega

theorem lseek_eq_clamp (d : Dev) (offset orig : Int)
    (horig : orig = 0 ∨ orig = 1 ∨ orig = 2) :
    (fib_device_lseek d offset orig).1 =
      clamp_index (if orig = 0 then offset else wrap64 (seek_target d.f_pos offset orig)) := by
  unfold fib_device_lseek MAX_LENGTH clamp_index seek_target
  dsimp only
  rcases horig with h | h | h <;> subst h <;> norm_num <;> omega

theorem run_session_spec (ops : List Op) : ∀ d : Dev, 0 ≤ d.f_pos → d.f_pos ≤ 92 →
    d.test_buf.length = 30 →
    ∃ d1 tr, run_session d ops = some (d1, tr) ∧ ∀ k ∈ tr, 0 ≤ k ∧ k ≤ 92 := by
  induction ops with
  | nil => intro d _ _ _; exact ⟨d, [], rfl, by simp⟩
  | cons op ops ih =>
    intro d h0 h92 hbuf
    cases op with
    | seek offset orig =>
      obtain ⟨l1, l2, l3, l4, _⟩ := lseek_range d offset orig
      rw [run_session]
      exact ih _ (by rw [l3]; exact l1) (by rw [l3]; exact l2) (by rw [l4]; exact hbuf)
    | read size =>
      have hk : d.f_pos = ((d.f_pos.toNat : Nat) : Int) := by omega
      have hr := fib_read_spec d size d.f_pos.toNat hk (by omega) hbuf
      obtain ⟨d1, tr, h1, h2⟩ := ih
        ⟨d.locked, result_buffer (Nat.fib d.f_pos.toNat % 2 ^ 64), d.f_pos⟩ h0 h92
        (result_buffer_length _ (Nat.mod_lt _ (by positivity)))
      rw [run_session, hr, Option.some_bind]
      dsimp only
      rw [h1]
      refine ⟨d1, d.f_pos :: tr, rfl, ?_⟩
      intro k hk
      rcases List.mem_cons.mp hk with rfl | hk
      · exact ⟨h0, h92⟩
      · exact h2 k hk
    | write size =>
      rw [run_session]
      exact ih _ h0 h92 hbuf

/-! ## The claims -/

/-- Claim C1: for all 64-bit unsigned `a` and `b`, and whatever `*c` and `*s` hold
before the call, the sum that `adder` leaves in `*s` after its 64 iterations is
`(a + b) mod 2^64`, the native wraparound sum. -/
theorem adder_sum_native (c s a b : Nat) (ha : a < 2 ^ 64) (hb : b < 2 ^ 64) :
    (adder c s a b).2 = (a + b) % 2 ^ 64 := by
  rw [adder_spec c s a b ha hb]

theorem adder_sum_native_witness :
    2 ^ 64 - 1 < 2 ^ 64 ∧
      (adder 0 0 (2 ^ 64 - 1) (2 ^ 64 - 1)).2 = (2 ^ 64 - 1 + (2 ^ 64 - 1)) % 2 ^ 64 :=
  ⟨by norm_num, adder_sum_native 0 0 (2 ^ 64 - 1) (2 ^ 64 - 1) (by norm_num) (by norm_num)⟩

/-- Claim C2: `fib_sequence` returns 0 at 0 and 1 at 1, and for every `k` with
`2 <= k <= 92` it returns at `k` the sum modulo `2^64` of what it returns at `k - 1`
and at `k - 2`; it returns 1 at 2, 55 at 10 and 6765 at 20. -/
theorem fib_sequence_recurrence (k : Int) (h2 : 2 ≤ k) (h92 : k ≤ 92) :
    fib_sequence 0 = some 0 ∧ fib_sequence 1 = some 1 ∧
    (∃ x y, fib_sequence (k - 1) = some x ∧ fib_sequence (k - 2) = some y ∧
      fib_sequence k = some ((x + y) % 2 ^ 64)) ∧
    fib_sequence 2 = some 1 ∧ fib_sequence 10 = some 55 ∧ fib_sequence 20 = some 6765 := by
  have hval : ∀ (n v : Nat), n ≤ 92 → Nat.fib n = v → v < 2 ^ 64 →
      fib_sequence (n : Int) = some v := by
    intro n v h0 h1 h2
    rw [fib_sequence_eq n (by omega), h1, Nat.mod_eq_of_lt h2]
  refine ⟨hval 0 0 (by decide) rfl (by norm_num), hval 1 1 (by decide) rfl (by norm_num), ?_,
    hval 2 1 (by decide) rfl (by norm_num),
    hval 10 55 (by decide) (by norm_num) (by norm_num),
    hval 20 6765 (by decide) (by norm_num) (by norm_num)⟩
  obtain ⟨n, rfl⟩ : ∃ n : Nat, k = ((n + 2 : Nat) : Int) := ⟨(k - 2).toNat, by omega⟩
  refine ⟨Nat.fib (n + 1) % 2 ^ 64, Nat.fib n % 2 ^ 64, ?_, ?_, ?_⟩
  · rw [show ((n + 2 : Nat) : Int) - 1 = ((n + 1 : Nat) : Int) by omega,
      fib_sequence_eq _ (by omega)]
  · rw [show ((n + 2 : Nat) : Int) - 2 = (n : Int) by omega, fib_sequence_eq _ (by omega)]
  · rw [fib_sequence_eq _ (by omega), Nat.fib_add_two, ← Nat.add_mod, Nat.add_comm]

theorem fib_sequence_recurrence_witness :
    (2 : Int) ≤ 7 ∧ (7 : Int) ≤ 92 ∧
    (fib_sequence 0 = some 0 ∧ fib_sequence 1 = some 1 ∧
    (∃ x y, fib_sequence (7 - 1) = some x ∧ fib_sequence (7 - 2) = some y ∧
      fib_sequence 7 = some ((x + y) % 2 ^ 64)) ∧
    fib_sequence 2 = some 1 ∧ fib_sequence 10 = some 55 ∧ fib_sequence 20 = some 6765) :=
  ⟨by decide, by decide, fib_sequence_recurrence 7 (by decide) (by decide)⟩

/-- Claim C3: for every index `k` in `[0, 92]`, `fib_sequence` returns the exact `k`-th
Fibonacci number, which is at most `2^63 - 1`, so the signed value that `fib_read`
returns at position `k` is that number and is not negative; the Fibonacci number of
every index from 93 on exceeds `2^63 - 1`, and the value read at 93 would be negative. -/
theorem fib_sequence_exact (d : Dev) (size : Nat) (k : Int) (h0 : 0 ≤ k) (h92 : k ≤ 92)
    (hpos : d.f_pos = k) (hbuf : d.test_buf.length = 30) :
    fib_sequence k = some (Nat.fib k.toNat) ∧ Nat.fib k.toNat ≤ 2 ^ 63 - 1 ∧
    (fib_read d size).map (fun r => r.1) = some (Nat.fib k.toNat : Int) ∧
    (0 : Int) ≤ (Nat.fib k.toNat : Int) ∧
    (∀ j : Nat, 93 ≤ j → 2 ^ 63 - 1 < Nat.fib j) ∧
    fib_sequence 93 = some (Nat.fib 93) ∧ to_ssize (Nat.fib 93) < 0 := by
  have hk : k = ((k.toNat : Nat) : Int) := by omega
  have hlt : Nat.fib k.toNat < 2 ^ 63 := fib_lt_of_le_92 _ (by omega)
  have hmod : Nat.fib k.toNat % 2 ^ 64 = Nat.fib k.toNat :=
    Nat.mod_eq_of_lt (lt_trans hlt (by norm_num))
  have h93 : Nat.fib 93 = 12200160415121876738 := by norm_num [Nat.fib]
  refine ⟨?_, by omega, ?_, by omega, ?_, ?_, ?_⟩
  · have := fib_sequence_eq k.toNat (by omega)
    rw [← hk, hmod] at this
    exact this
  · rw [fib_read_spec d size k.toNat (hpos.trans hk) (by omega) hbuf, hmod,
      to_ssize_of_lt _ hlt]
    rfl
  · intro j hj
    have : Nat.fib 93 ≤ Nat.fib j := Nat.fib_mono hj
    omega
  · have := fib_sequence_eq 93 (by decide)
    rw [h93] at this ⊢
    exact this
  · rw [h93]
    unfold to_ssize wrap64
    norm_num

theorem fib_sequence_exact_witness :
    (0 : Int) ≤ 92 ∧ (92 : Int) ≤ 92 ∧
    (fib_sequence 92 = some (Nat.fib (92 : Int).toNat) ∧
    Nat.fib (92 : Int).toNat ≤ 2 ^ 63 - 1 ∧
    (fib_read ⟨true, List.replicate 30 0, 92⟩ 30).map (fun r => r.1) =
      some (Nat.fib (92 : Int).toNat : Int) ∧
    (0 : Int) ≤ (Nat.fib (92 : Int).toNat : Int) ∧
    (∀ j : Nat, 93 ≤ j → 2 ^ 63 - 1 < Nat.fib j) ∧
    fib_sequence 93 = some (Nat.fib 93) ∧ to_ssize (Nat.fib 93) < 0) :=
  ⟨by decide, by decide,
    fib_sequence_exact ⟨true, List.replicate 30 0, 92⟩ 30 92 (by decide) (by decide) rfl rfl⟩

/-- Claim C4: from a free device and for every `k` in `[0, 92]` and every requested
size, `fib_open` returns 0, the seek with mode 0 to `k` returns `k`, and the read that
follows returns the Fibonacci number of `k` (not a byte count), hands out and leaves in
the 30-byte buffer the decimal text of that number, most significant digit first,
followed only by zero bytes; for `k = 10` the text is "55" and the number 55. -/
theorem open_seek_read (d : Dev) (k : Int) (size : Nat) (hfree : d.locked = false)
    (hbuf : d.test_buf.length = 30) (h0 : 0 ≤ k) (h92 : k ≤ 92) :
    (fib_open d).1 = 0 ∧
    (fib_device_lseek (fib_open d).2 k 0).1 = k ∧
    fib_read (fib_device_lseek (fib_open d).2 k 0).2 size =
      some ((Nat.fib k.toNat : Int), ⟨true, result_buffer (Nat.fib k.toNat), k⟩,
        result_buffer (Nat.fib k.toNat)) ∧
    result_buffer (Nat.fib k.toNat) =
      decimal_text (Nat.fib k.toNat) ++ List.replicate (30 - num_digits (Nat.fib k.toNat)) 0 ∧
    (result_buffer (Nat.fib k.toNat)).length = 30 ∧
    Nat.fib (10 : Int).toNat = 55 ∧
    decimal_text (Nat.fib (10 : Int).toNat) = "55".toList.map Char.toNat := by
  have hk : k = ((k.toNat : Nat) : Int) := by omega
  have hlt : Nat.fib k.toNat < 2 ^ 63 := fib_lt_of_le_92 _ (by omega)
  have hlt64 : Nat.fib k.toNat < 2 ^ 64 := lt_trans hlt (by norm_num)
  have hmod : Nat.fib k.toNat % 2 ^ 64 = Nat.fib k.toNat := Nat.mod_eq_of_lt hlt64
  have hopen : fib_open d = (0, ⟨true, d.test_buf, d.f_pos⟩) := by
    unfold fib_open
    rw [hfree]
    rfl
  have hseek : fib_device_lseek ⟨true, d.test_buf, d.f_pos⟩ k 0 = (k, ⟨true, d.test_buf, k⟩) := by
    unfold fib_device_lseek MAX_LENGTH
    dsimp only
    rw [if_pos rfl, if_neg (by omega), if_neg (by omega)]
  have h10 : Nat.fib (10 : Int).toNat = 55 := by
    rw [show (10 : Int).toNat = 10 from rfl]
    norm_num
  refine ⟨by rw [hopen], by rw [hopen, hseek], ?_, rfl, result_buffer_length _ hlt64, h10, ?_⟩
  · rw [hopen, hseek]
    have := fib_read_spec ⟨true, d.test_buf, k⟩ size k.toNat hk (by omega) hbuf
    rw [hmod, to_ssize_of_lt _ hlt] at this
    exact this
  · rw [h10]
    unfold decimal_text lsd_digits
    norm_num
    decide

theorem open_seek_read_witness :
    false = false ∧ (List.replicate 30 7).length = 30 ∧ (0 : Int) ≤ 10 ∧ (10 : Int) ≤ 92 ∧
    ((fib_open ⟨false, List.replicate 30 7, 0⟩).1 = 0 ∧
    (fib_device_lseek (fib_open ⟨false, List.replicate 30 7, 0⟩).2 10 0).1 = 10 ∧
    fib_read (fib_device_lseek (fib_open ⟨false, List.replicate 30 7, 0⟩).2 10 0).2 4 =
      some ((Nat.fib (10 : Int).toNat : Int),
        ⟨true, result_buffer (Nat.fib (10 : Int).toNat), 10⟩,
        result_buffer (Nat.fib (10 : Int).toNat)) ∧
    result_buffer (Nat.fib (10 : Int).toNat) =
      decimal_text (Nat.fib (10 : Int).toNat) ++
        List.replicate (30 - num_digits (Nat.fib (10 : Int).toNat)) 0 ∧
    (result_buffer (Nat.fib (10 : Int).toNat)).length = 30 ∧
    Nat.fib (10 : Int).toNat = 55 ∧
    decimal_text (Nat.fib (10 : Int).toNat) = "55".toList.map Char.toNat) :=
  ⟨rfl, rfl, by decide, by decide,
    open_seek_read ⟨false, List.replicate 30 7, 0⟩ 10 4 rfl rfl (by decide) (by decide)⟩

/-- Claim C5: for every index `k` in `[0, 92]`, reading the bytes that `fib_read`
leaves in the result buffer before the first zero byte as a decimal number gives
exactly the value of `fib_sequence(k)` that the same read returns. -/
theorem read_round_trip (d : Dev) (size : Nat) (k : Int) (h0 : 0 ≤ k) (h92 : k ≤ 92)
    (hpos : d.f_pos = k) (hbuf : d.test_buf.length = 30) :
    ∃ v d1 out, fib_sequence k = some v ∧ fib_read d size = some ((v : Int), d1, out) ∧
      parse_decimal (c_string d1.test_buf) = v ∧ parse_decimal (c_string out) = v := by
  have hk : k = ((k.toNat : Nat) : Int) := by omega
  have hlt : Nat.fib k.toNat < 2 ^ 63 := fib_lt_of_le_92 _ (by omega)
  have hlt64 : Nat.fib k.toNat < 2 ^ 64 := lt_trans hlt (by norm_num)
  have hmod : Nat.fib k.toNat % 2 ^ 64 = Nat.fib k.toNat := Nat.mod_eq_of_lt hlt64
  have hseq := fib_sequence_eq k.toNat (by omega)
  have hread := fib_read_spec d size k.toNat (hpos.trans hk) (by omega) hbuf
  rw [← hk, hmod] at hseq
  rw [hmod, to_ssize_of_lt _ hlt] at hread
  refine ⟨Nat.fib k.toNat, _, _, hseq, hread, ?_, ?_⟩
  · show parse_decimal (c_string (result_buffer (Nat.fib k.toNat))) = _
    rw [c_string_result_buffer _ hlt64, parse_decimal_text]
  · rw [c_string_result_buffer _ hlt64, parse_decimal_text]

theorem read_round_trip_witness :
    (0 : Int) ≤ 20 ∧ (20 : Int) ≤ 92 ∧
    ∃ v d1 out, fib_sequence 20 = some v ∧
      fib_read ⟨true, List.replicate 30 0, 20⟩ 30 = some ((v : Int), d1, out) ∧
      parse_decimal (c_string d1.test_buf) = v ∧ parse_decimal (c_string out) = v :=
  ⟨by decide, by decide,
    read_round_trip ⟨true, List.replicate 30 0, 20⟩ 30 20 (by decide) (by decide) rfl rfl⟩

set_option maxRecDepth 100000 in
/-- Claim C6, evaluated where it fails: with a capacity equal to the digit count the
digits fill the buffer, `rev_str` measures the string past the end of the buffer, and
the first bytes are not the decimal text although `true` is returned (55 with capacity
2, 0 with capacity 1); when the memory object ends with the buffer the read past its
end has no defined result. -/
theorem fib_num_to_str_full_buffer :
    num_digits 55 = 2 ∧ decimal_text 55 = [53, 53] ∧
    fib_num_to_str [0, 0, 120, 0] 2 55 = some (true, [120, 53, 53, 0]) ∧
    fib_num_to_str [0, 0] 2 55 = none ∧
    num_digits 0 = 1 ∧ decimal_text 0 = [48] ∧
    fib_num_to_str [0, 97, 0] 1 0 = some (true, [97, 48, 0]) := by
  refine ⟨?_, ?_, by decide, by decide, ?_, ?_, by decide⟩
  · unfold num_digits lsd_digits; norm_num
  · unfold decimal_text lsd_digits; norm_num
  · unfold num_digits lsd_digits; norm_num
  · unfold decimal_text lsd_digits; norm_num

/-- Claim C7: `fib_num_to_str` returns false for every value when the capacity is 0,
leaving the buffer as it was, and for every capacity `c >= 1` it returns false for
every 64-bit value that has more than `c` decimal digits, which is the same as being
at least `10^c`; with capacity 1 it returns false for every value from 10 on. -/
theorem fib_num_to_str_too_small (str : List Nat) (c n : Nat) (hn : n < 2 ^ 64)
    (hc1 : 1 ≤ c) (hc : c ≤ str.length) (hv : 10 ^ c ≤ n) :
    (∀ (s : List Nat) (v : Nat), fib_num_to_str s 0 v = some (false, s)) ∧
    (c < num_digits n ↔ 10 ^ c ≤ n) ∧
    (∃ str1, fib_num_to_str str (c : Int) n = some (false, str1)) ∧
    (∀ (s : List Nat) (v : Nat), v < 2 ^ 64 → 1 ≤ s.length → 10 ≤ v →
      ∃ s1, fib_num_to_str s 1 v = some (false, s1)) := by
  have hiff : ∀ (c v : Nat), 1 ≤ c → (c < num_digits v ↔ 10 ^ c ≤ v) := by
    intro c v h1
    obtain ⟨j, rfl⟩ : ∃ j, c = j + 1 := ⟨c - 1, by omega⟩
    have := num_digits_le_iff j v
    omega
  refine ⟨?_, hiff c n hc1, ?_, ?_⟩
  · intro s v
    unfold fib_num_to_str
    rw [if_pos rfl]
  · exact fib_num_to_str_fail str c n hn hc hc1 ((hiff c n hc1).2 hv)
  · intro s v hv64 hs hv10
    exact fib_num_to_str_fail s 1 v hv64 hs (le_refl 1) ((hiff 1 v (le_refl 1)).2 (by simpa using hv10))

theorem fib_num_to_str_too_small_witness :
    123 < 2 ^ 64 ∧ 1 ≤ 2 ∧ 2 ≤ [7, 7, 7].length ∧ 10 ^ 2 ≤ 123 ∧
    ((∀ (s : List Nat) (v : Nat), fib_num_to_str s 0 v = some (false, s)) ∧
    (2 < num_digits 123 ↔ 10 ^ 2 ≤ 123) ∧
    (∃ str1, fib_num_to_str [7, 7, 7] ((2 : Nat) : Int) 123 = some (false, str1)) ∧
    (∀ (s : List Nat) (v : Nat), v < 2 ^ 64 → 1 ≤ s.length → 10 ≤ v →
      ∃ s1, fib_num_to_str s 1 v = some (false, s1))) :=
  ⟨by norm_num, by decide, by decide, by norm_num,
    fib_num_to_str_too_small [7, 7, 7] 2 123 (by norm_num) (by decide) (by decide)
      (by norm_num)⟩

/-- Claim C8: whenever `fib_num_to_str` returns true for a 64-bit value and a buffer
of capacity `c`, every buffer byte at an index from the digit count of the value up
to `c - 1` is zero afterwards, whatever the buffer held before the call. -/
theorem fib_num_to_str_zero_tail (str str1 : List Nat) (c n : Nat) (hn : n < 2 ^ 64)
    (hc : c ≤ str.length)
    (hs : fib_num_to_str str (c : Int) n = some (true, str1)) :
    ∀ i : Nat, num_digits n ≤ i → i < c → str1[i]? = some 0 := by
  intro i hi1 hi2
  rcases Nat.lt_or_ge c (num_digits n) with hlt | hge
  · omega
  · have hd : num_digits n < c := by omega
    rw [fib_num_to_str_ok str c n hn hc hd] at hs
    have heq : str1 = decimal_text n ++ List.replicate (c - num_digits n) 0 ++ str.drop c := by
      have := Option.some.inj hs
      exact (congrArg Prod.snd this).symm
    have hlen : (decimal_text n).length = num_digits n := by
      unfold decimal_text num_digits
      rw [List.length_reverse, List.length_map]
    rw [heq, List.append_assoc, List.getElem?_append_right (by omega),
      List.getElem?_append_left (by rw [List.length_replicate]; omega)]
    rw [List.getElem?_replicate]
    rw [if_pos (by omega)]

set_option maxRecDepth 100000 in
theorem fib_num_to_str_zero_tail_witness :
    55 < 2 ^ 64 ∧ 4 ≤ [7, 8, 9, 10, 11].length ∧
    fib_num_to_str [7, 8, 9, 10, 11] ((4 : Nat) : Int) 55 = some (true, [53, 53, 0, 0, 11]) ∧
    ∀ i : Nat, num_digits 55 ≤ i → i < 4 → [53, 53, 0, 0, 11][i]? = some 0 :=
  ⟨by norm_num, by decide, by decide,
    fib_num_to_str_zero_tail [7, 8, 9, 10, 11] [53, 53, 0, 0, 11] 4 55 (by norm_num)
      (by decide) (by decide)⟩

/-- Claim C9 as stated fails: from position 1, the seek with mode 1 and offset
`2^63 - 1` returns 0, where the clamp of the unbounded sum `2^63` is 92; and from
position 0, the seek with mode 2 and offset `-2^63` returns 0, where the clamp of the
unbounded difference `92 + 2^63` is 92. -/
theorem lseek_unbounded_counterexample :
    (fib_device_lseek ⟨true, List.replicate 30 0, 1⟩ (2 ^ 63 - 1) 1).1 = 0 ∧
    clamp_index (seek_target 1 (2 ^ 63 - 1) 1) = 92 ∧
    (fib_device_lseek ⟨true, List.replicate 30 0, 0⟩ (-2 ^ 63) 2).1 = 0 ∧
    clamp_index (seek_target 0 (-2 ^ 63) 2) = 92 := by
  refine ⟨by decide, by decide, by decide, by decide⟩

/-- Claim C9, amended: for every position, every signed 64-bit offset and every mode in `{0, 1, 2}`, `fib_device_lseek` returns the clamp to `[0, 92]` of the
target `offset`, `position + offset` or `92 - offset` reduced to the signed 64-bit
range by wraparound, which is the clamp of the target itself whenever the target lies
in that range; the seeks (0, 200), (0, -5), (2, 0), (2, 10) return 92, 0, 92, 82. -/
theorem lseek_clamp_wrapped (d : Dev) (offset orig : Int)
    (ho1 : -2 ^ 63 ≤ offset) (ho2 : offset < 2 ^ 63)
    (horig : orig = 0 ∨ orig = 1 ∨ orig = 2) :
    (fib_device_lseek d offset orig).1 =
      clamp_index (wrap64 (seek_target d.f_pos offset orig)) ∧
    (-2 ^ 63 ≤ seek_target d.f_pos offset orig → seek_target d.f_pos offset orig < 2 ^ 63 →
      (fib_device_lseek d offset orig).1 = clamp_index (seek_target d.f_pos offset orig)) ∧
    (fib_device_lseek d 200 0).1 = 92 ∧ (fib_device_lseek d (-5) 0).1 = 0 ∧
    (fib_device_lseek d 0 2).1 = 92 ∧ (fib_device_lseek d 10 2).1 = 82 := by
  have hmain : (fib_device_lseek d offset orig).1 =
      clamp_index (wrap64 (seek_target d.f_pos offset orig)) := by
    rw [lseek_eq_clamp d offset orig horig]
    by_cases h : orig = 0
    · rw [if_pos h]
      unfold seek_target
      rw [if_pos h, wrap64_of_range offset ho1 ho2]
    · rw [if_neg h]
  refine ⟨hmain, ?_, ?_, ?_, ?_, ?_⟩
  · intro h1 h2
    rw [hmain, wrap64_of_range _ h1 h2]
  · rw [lseek_eq_clamp d 200 0 (Or.inl rfl), if_pos rfl]; decide
  · rw [lseek_eq_clamp d (-5) 0 (Or.inl rfl), if_pos rfl]; decide
  · rw [lseek_eq_clamp d 0 2 (Or.inr (Or.inr rfl)), if_neg (by decide)]
    unfold seek_target
    rw [if_neg (by decide), if_neg (by decide), if_pos rfl]
    decide
  · rw [lseek_eq_clamp d 10 2 (Or.inr (Or.inr rfl)), if_neg (by decide)]
    unfold seek_target
    rw [if_neg (by decide), if_neg (by decide), if_pos rfl]
    decide

theorem lseek_clamp_wrapped_witness :
    (-2 ^ 63 : Int) ≤ 2 ^ 63 - 1 ∧ (2 ^ 63 - 1 : Int) < 2 ^ 63 ∧
    ((1 : Int) = 0 ∨ (1 : Int) = 1 ∨ (1 : Int) = 2) ∧
    ((fib_device_lseek ⟨true, List.replicate 30 0, 1⟩ (2 ^ 63 - 1) 1).1 =
      clamp_index (wrap64 (seek_target 1 (2 ^ 63 - 1) 1)) ∧
    (-2 ^ 63 ≤ seek_target 1 (2 ^ 63 - 1) 1 → seek_target 1 (2 ^ 63 - 1) 1 < 2 ^ 63 →
      (fib_device_lseek ⟨true, List.replicate 30 0, 1⟩ (2 ^ 63 - 1) 1).1 =
        clamp_index (seek_target 1 (2 ^ 63 - 1) 1)) ∧
    (fib_device_lseek ⟨true, List.replicate 30 0, 1⟩ 200 0).1 = 92 ∧
    (fib_device_lseek ⟨true, List.replicate 30 0, 1⟩ (-5) 0).1 = 0 ∧
    (fib_device_lseek ⟨true, List.replicate 30 0, 1⟩ 0 2).1 = 92 ∧
    (fib_device_lseek ⟨true, List.replicate 30 0, 1⟩ 10 2).1 = 82) :=
  ⟨by decide, by decide, Or.inr (Or.inl rfl),
    lseek_clamp_wrapped ⟨true, List.replicate 30 0, 1⟩ (2 ^ 63 - 1) 1 (by decide) (by decide)
      (Or.inr (Or.inl rfl))⟩

/-- Claim C10: for every prior position, every mode value, known or not, and every
offset, `fib_device_lseek` stores a position in `[0, 92]` and returns the value it
stored; hence in every session that starts at position 0 each call runs to its end
and every index that `fib_read` hands to `fib_sequence` lies in `[0, 92]`. -/
theorem cursor_invariant (d d0 : Dev) (offset orig : Int) (ops : List Op)
    (hstart : d0.f_pos = 0) (hbuf : d0.test_buf.length = 30) :
    (0 ≤ (fib_device_lseek d offset orig).2.f_pos ∧
      (fib_device_lseek d offset orig).2.f_pos ≤ 92 ∧
      (fib_device_lseek d offset orig).1 = (fib_device_lseek d offset orig).2.f_pos) ∧
    ∃ d1 tr, run_session d0 ops = some (d1, tr) ∧ ∀ k ∈ tr, 0 ≤ k ∧ k ≤ 92 := by
  obtain ⟨l1, l2, l3, _, _⟩ := lseek_range d offset orig
  refine ⟨⟨by rw [l3]; exact l1, by rw [l3]; exact l2, l3.symm⟩, ?_⟩
  exact run_session_spec ops d0 (by omega) (by omega) hbuf

theorem cursor_invariant_witness :
    (0 : Int) = 0 ∧ (List.replicate 30 0).length = 30 ∧
    ((0 ≤ (fib_device_lseek ⟨true, [], -7⟩ (2 ^ 63 - 1) 5).2.f_pos ∧
      (fib_device_lseek ⟨true, [], -7⟩ (2 ^ 63 - 1) 5).2.f_pos ≤ 92 ∧
      (fib_device_lseek ⟨true, [], -7⟩ (2 ^ 63 - 1) 5).1 =
        (fib_device_lseek ⟨true, [], -7⟩ (2 ^ 63 - 1) 5).2.f_pos) ∧
    ∃ d1 tr, run_session ⟨true, List.replicate 30 0, 0⟩
        [Op.read 30, Op.seek 200 0, Op.read 30, Op.seek 1 1, Op.write 1, Op.read 1] =
          some (d1, tr) ∧ ∀ k ∈ tr, 0 ≤ k ∧ k ≤ 92) :=
  ⟨rfl, rfl, cursor_invariant ⟨true, [], -7⟩ ⟨true, List.replicate 30 0, 0⟩ (2 ^ 63 - 1) 5
    [Op.read 30, Op.seek 200 0, Op.read 30, Op.seek 1 1, Op.write 1, Op.read 1] rfl rfl⟩

/-! ## Further lemmas: the read path, `rev_str` and the indices of the loops -/

theorem fib_read_eq_after (d : Dev) (size : Nat) :
    fib_read d size =
      (fib_sequence d.f_pos).bind fun fib_n =>
        (fib_num_to_str d.test_buf 30 fib_n).bind (fib_read_after d fib_n) := rfl

theorem fib_read_frame (e e1 : Dev) (sz : Nat) (r : Int) (out : List Nat)
    (h : fib_read e sz = some (r, e1, out)) : e1.f_pos = e.f_pos ∧ e1.locked = e.locked := by
  unfold fib_read at h
  simp only [Option.bind_eq_some] at h
  obtain ⟨fib_n, _, q, _, buf, _, heq⟩ := h
  have h1 := Option.some.inj heq
  have h2 : e1 = ⟨e.locked, buf, e.f_pos⟩ := (congrArg (fun t => t.2.1) h1).symm
  rw [h2]
  exact ⟨rfl, rfl⟩

theorem fib_read_of_sequence (e : Dev) (sz v : Nat) (hseq : fib_sequence e.f_pos = some v)
    (hbuf : e.test_buf.length = 30) :
    fib_read e sz =
      some (to_ssize v, ⟨e.locked, result_buffer v, e.f_pos⟩, result_buffer v) := by
  have hv : v < 2 ^ 64 := fib_sequence_lt _ _ hseq
  unfold fib_read
  rw [hseq, Option.some_bind, fib_num_to_str_30 _ _ hv hbuf, Option.some_bind]
  dsimp only
  rw [if_neg (by decide), Option.some_bind,
    List.take_of_length_le (by rw [result_buffer_length _ hv])]

theorem fib_read_twice (e e1 : Dev) (sz sz2 : Nat) (r : Int) (out : List Nat)
    (hbuf : e.test_buf.length = 30) (h : fib_read e sz = some (r, e1, out)) :
    fib_read e1 sz2 = some (r, e1, out) := by
  cases hseq : fib_sequence e.f_pos with
  | none =>
    unfold fib_read at h
    rw [hseq] at h
    exact absurd h (by simp)
  | some v =>
    have hv : v < 2 ^ 64 := fib_sequence_lt _ _ hseq
    rw [fib_read_of_sequence e sz v hseq hbuf] at h
    have h1 := Option.some.inj h
    have hr : r = to_ssize v := (congrArg (fun t => t.1) h1).symm
    have he : e1 = ⟨e.locked, result_buffer v, e.f_pos⟩ := (congrArg (fun t => t.2.1) h1).symm
    have ho : out = result_buffer v := (congrArg (fun t => t.2.2) h1).symm
    rw [hr, he, ho]
    exact fib_read_of_sequence ⟨e.locked, result_buffer v, e.f_pos⟩ sz2 v hseq
      (result_buffer_length _ hv)

theorem strncpy_message (buf : List Nat) (h : 30 ≤ buf.length) :
    strncpy buf read_message 30 = some (read_message ++ List.replicate 9 0 ++ buf.drop 30) := by
  unfold strncpy
  rw [if_pos h]
  rfl

theorem fib_read_after_false (d : Dev) (fib_n : Nat) (buf : List Nat) (h : 30 ≤ buf.length) :
    fib_read_after d fib_n (false, buf) =
      some (to_ssize fib_n,
        ⟨d.locked, read_message ++ List.replicate 9 0 ++ buf.drop 30, d.f_pos⟩,
        read_message ++ List.replicate 9 0) := by
  unfold fib_read_after
  dsimp only
  rw [if_pos rfl, strncpy_message buf h, Option.some_bind]
  have : (read_message ++ List.replicate 9 0 ++ buf.drop 30).take 30 =
      read_message ++ List.replicate 9 0 := by
    rw [List.take_append_of_le_length (by decide)]
    exact List.take_of_length_le (by decide)
  rw [this]

theorem rev_str_empty (B : List Nat) : rev_str (0 :: B) = some (false, 0 :: B) := by
  unfold rev_str
  rw [show strlen (0 :: B) = some 0 from by simp [strlen], Option.some_bind]
  rfl

theorem wrap32_two_pow_32 : wrap32 (((2 : Nat) ^ 32 : Nat) : Int) = 0 := by
  unfold wrap32
  norm_num

theorem load_isSome (m : List Nat) (i : Nat) : (load m i).isSome ↔ i < m.length := by
  unfold load
  rw [Option.isSome_iff_exists]
  constructor
  · rintro ⟨a, ha⟩
    exact (List.getElem?_eq_some_iff.mp ha).1
  · intro h
    exact ⟨m[i], List.getElem?_eq_getElem h⟩

theorem load_of_lt (m : List Nat) (i : Nat) (h : i < m.length) : load m i = some (m.getD i 0) := by
  unfold load
  rw [List.getElem?_eq_getElem h, List.getD_eq_getElem _ _ h]

theorem load_of_ge (m : List Nat) (i : Nat) (h : m.length ≤ i) : load m i = none := by
  unfold load
  exact List.getElem?_eq_none h

theorem store_of_lt (m : List Nat) (i v : Nat) (h : i < m.length) :
    store m i v = some (m.set i v) := by
  unfold store
  rw [if_pos h]

theorem zero_fill_isSome_iff (n : Nat) : ∀ (i : Nat) (str : List Nat),
    (zero_fill n i str).isSome ↔ ∀ j ∈ zero_fill_indices n i, j < str.length := by
  induction n with
  | zero => intro i str; simp [zero_fill, zero_fill_indices]
  | succ n ih =>
    intro i str
    rw [zero_fill, zero_fill_indices]
    rcases Nat.lt_or_ge i str.length with hi | hi
    · rw [load_of_lt _ _ hi, Option.some_bind, store_of_lt _ _ _ hi, Option.some_bind, ih]
      simp only [List.length_set, List.mem_cons, forall_eq_or_imp]
      exact ⟨fun h => ⟨hi, h⟩, fun h => h.2⟩
    · rw [load_of_ge _ _ hi, Option.none_bind]
      simp only [Option.isSome_none, List.mem_cons, forall_eq_or_imp]
      exact ⟨fun h => absurd h (by decide), fun h => absurd h.1 (by omega)⟩

theorem digit_loop_isSome_iff (size : Int) (fuel : Nat) : ∀ (n i : Nat) (str : List Nat),
    n < fuel →
    ((digit_loop size fuel str i n).isSome ↔
      ∀ j ∈ digit_loop_indices size fuel i n, j < str.length) := by
  induction fuel with
  | zero => intro n i str h; omega
  | succ fuel ih =>
    intro n i str hf
    rw [digit_loop, digit_loop_indices]
    have hrec : n / 10 ≠ 0 → n / 10 < fuel := by
      intro h
      have : n / 10 < n := Nat.div_lt_self (by omega) (by decide)
      omega
    cases hsw : switch_digit (sub64 (sub64 n (shl64 (n / 10) 3)) (shl64 (n / 10) 1)) with
    | none =>
      dsimp only
      rw [Option.some_bind]
      dsimp only
      by_cases h0 : n / 10 = 0
      · rw [if_pos h0, if_pos h0]; simp
      · rw [if_neg h0, if_neg h0]
        by_cases hs : (i : Int) ≥ size
        · rw [if_pos hs, if_pos hs]; simp
        · rw [if_neg hs, if_neg hs, ih _ _ _ (hrec h0)]
          simp
    | some ch =>
      dsimp only
      rcases Nat.lt_or_ge i str.length with hi | hi
      · rw [load_of_lt _ _ hi, Option.some_bind, store_of_lt _ _ _ hi]
        simp only [Option.map_some', Option.some_bind]
        by_cases h0 : n / 10 = 0
        · rw [if_pos h0, if_pos h0]; simpa using hi
        · rw [if_neg h0, if_neg h0]
          by_cases hs : ((i + 1 : Nat) : Int) ≥ size
          · rw [if_pos hs, if_pos hs]; simpa using hi
          · rw [if_neg hs, if_neg hs, ih _ _ _ (hrec h0)]
            simp only [List.length_set, List.singleton_append, List.mem_cons, forall_eq_or_imp]
            exact ⟨fun h => ⟨hi, h⟩, fun h => h.2⟩
      · rw [load_of_ge _ _ hi, Option.none_bind, Option.none_bind]
        simp only [Option.isSome_none]
        refine ⟨fun h => absurd h (by decide), fun h => ?_⟩
        have : i < str.length := by
          apply h
          by_cases h0 : n / 10 = 0
          · rw [if_pos h0]; simp
          · rw [if_neg h0]
            by_cases hs : ((i + 1 : Nat) : Int) ≥ size
            · rw [if_pos hs]; simp
            · rw [if_neg hs]; simp
        omega

theorem load_int_some (m : List Nat) (j : Int) (h0 : 0 ≤ j) (h1 : j < (m.length : Int)) :
    load_int m j = some (m.getD j.toNat 0) := by
  unfold load_int
  rw [if_pos h0]
  unfold load
  have : j.toNat < m.length := by omega
  rw [List.getElem?_eq_getElem this, List.getD_eq_getElem _ _ this]

theorem store_int_some (m : List Nat) (j : Int) (v : Nat) (h0 : 0 ≤ j)
    (h1 : j < (m.length : Int)) : store_int m j v = some (m.set j.toNat v) := by
  unfold store_int
  rw [if_pos h0]
  unfold store
  rw [if_pos (by omega)]

theorem store_int_none (m : List Nat) (j : Int) (v : Nat) (h : (m.length : Int) ≤ j) :
    store_int m j v = none := by
  unfold store_int store
  split
  · rw [if_neg (by omega)]
  · rfl

theorem fib_loop_isSome_iff (k : Int) (hk : k < 2 ^ 31 - 1) (fuel : Nat) :
    ∀ (i : Int) (f : List Nat), 2 ≤ i → i ≤ k + 1 → (k + 1 - i).toNat < fuel →
    ((fib_loop k fuel i f).isSome ↔
      ∀ j ∈ fib_loop_indices k fuel i, 0 ≤ j ∧ j < (f.length : Int)) := by
  induction fuel with
  | zero => intro i f _ _ h; omega
  | succ fuel ih =>
    intro i f h2 hik hf
    rw [fib_loop, fib_loop_indices]
    by_cases hle : i ≤ k
    · rw [if_pos hle, if_pos hle, wrap32_of_range (i - 1) (by omega) (by omega),
        wrap32_of_range (i - 2) (by omega) (by omega),
        wrap32_of_range (i + 1) (by omega) (by omega)]
      simp only [List.mem_cons, forall_eq_or_imp]
      rcases lt_or_le i (f.length : Int) with hi | hi
      · rw [load_int_some f (i - 1) (by omega) (by omega), Option.some_bind,
          load_int_some f (i - 2) (by omega) (by omega), Option.some_bind]
        simp only [store_int_some f i _ (by omega) hi, Option.some_bind]
        rw [ih (i + 1) _ (by omega) (by omega) (by omega), List.length_set]
        constructor
        · intro h
          exact ⟨⟨by omega, by omega⟩, ⟨by omega, by omega⟩, ⟨by omega, hi⟩, h⟩
        · intro h
          exact h.2.2.2
      · have hnone : ((load_int f (i - 1)).bind fun x => (load_int f (i - 2)).bind fun y =>
            (store_int f i (adder 0 0 x y).2).bind fun g => fib_loop k fuel (i + 1) g) =
              none := by
          cases load_int f (i - 1) with
          | none => rfl
          | some x =>
            cases load_int f (i - 2) with
            | none => rfl
            | some y =>
              simp only [Option.some_bind]
              rw [store_int_none f i _ hi]
              rfl
        rw [hnone]
        simp only [Option.isSome_none]
        exact ⟨fun h => absurd h (by decide), fun h => absurd h.2.2.1.2 (by omega)⟩
    · rw [if_neg hle, if_neg hle]
      simp

theorem fib_loop_indices_range (k : Int) (hk : k < 2 ^ 31 - 1) (fuel : Nat) :
    ∀ (i : Int), 2 ≤ i → ∀ j ∈ fib_loop_indices k fuel i, 0 ≤ j ∧ j ≤ k := by
  induction fuel with
  | zero => intro i _ j hj; simp [fib_loop_indices] at hj
  | succ fuel ih =>
    intro i h2 j hj
    rw [fib_loop_indices] at hj
    by_cases hle : i ≤ k
    · rw [if_pos hle, wrap32_of_range (i - 1) (by omega) (by omega),
        wrap32_of_range (i - 2) (by omega) (by omega),
        wrap32_of_range (i + 1) (by omega) (by omega)] at hj
      simp only [List.mem_cons] at hj
      rcases hj with rfl | rfl | rfl | hj
      · omega
      · omega
      · omega
      · exact ih (i + 1) (by omega) j hj
    · rw [if_neg hle] at hj
      simp at hj

theorem fib_loop_indices_wrapped (k : Int) (hk : 2 ^ 31 - 1 ≤ k) (m : Nat) :
    ∀ (fuel : Nat) (i : Int), 0 ≤ i → i + (m : Int) = 2 ^ 31 - 1 → m + 2 ≤ fuel →
      (-2 ^ 31 : Int) ∈ fib_loop_indices k fuel i := by
  induction m with
  | zero =>
    intro fuel i _ hi hf
    have hi' : i = 2 ^ 31 - 1 := by omega
    subst hi'
    obtain ⟨g, rfl⟩ : ∃ g, fuel = g + 2 := ⟨fuel - 2, by omega⟩
    rw [fib_loop_indices, if_pos hk, wrap32_two_pow_31, fib_loop_indices,
      if_pos (by omega)]
    simp only [List.mem_cons, true_or, or_true]
  | succ m ih =>
    intro fuel i h0 hi hf
    obtain ⟨g, rfl⟩ : ∃ g, fuel = g + 1 := ⟨fuel - 1, by omega⟩
    rw [fib_loop_indices, if_pos (by omega), wrap32_of_range (i + 1) (by omega) (by omega)]
    simp only [List.mem_cons]
    exact Or.inr (Or.inr (Or.inr (ih g (i + 1) (by omega) (by omega) (by omega))))

theorem zero_fill_indices_lt (n : Nat) : ∀ i : Nat, ∀ j ∈ zero_fill_indices n i, j < i + n := by
  induction n with
  | zero => intro i j hj; simp [zero_fill_indices] at hj
  | succ n ih =>
    intro i j hj
    rw [zero_fill_indices, List.mem_cons] at hj
    rcases hj with rfl | hj
    · omega
    · have := ih (i + 1) j hj
      omega

theorem digit_loop_indices_lt (size : Int) (fuel : Nat) : ∀ (n i : Nat), (i : Int) < size →
    ∀ j ∈ digit_loop_indices size fuel i n, (j : Int) < size := by
  induction fuel with
  | zero => intro n i _ j hj; simp [digit_loop_indices] at hj
  | succ fuel ih =>
    intro n i hi j hj
    rw [digit_loop_indices] at hj
    cases hsw : switch_digit (sub64 (sub64 n (shl64 (n / 10) 3)) (shl64 (n / 10) 1)) with
    | none =>
      rw [hsw] at hj
      dsimp only at hj
      by_cases h0 : n / 10 = 0
      · rw [if_pos h0] at hj; simp at hj
      · rw [if_neg h0] at hj
        by_cases hs : (i : Int) ≥ size
        · rw [if_pos hs] at hj; simp at hj
        · rw [if_neg hs, List.nil_append] at hj
          exact ih _ _ hi j hj
    | some ch =>
      rw [hsw] at hj
      dsimp only at hj
      by_cases h0 : n / 10 = 0
      · rw [if_pos h0, List.mem_singleton] at hj
        rw [hj]; exact hi
      · rw [if_neg h0] at hj
        by_cases hs : ((i + 1 : Nat) : Int) ≥ size
        · rw [if_pos hs, List.mem_singleton] at hj
          rw [hj]; exact hi
        · rw [if_neg hs, List.singleton_append, List.mem_cons] at hj
          rcases hj with rfl | hj
          · exact hi
          · exact ih _ _ (by omega) j hj

/-! ## The claims on the device, `rev_str`, `adder` and the loops -/

/-- Claim C11: with the mutex as a boolean lock, `fib_open` returns 0 exactly when the
lock is free and then holds the lock, and returns `-EBUSY` exactly when the lock is
held, leaving the state as it was; a second open without a release is busy, and an
open after `fib_release` returns 0. -/
theorem fib_open_lock (d : Dev) :
    ((fib_open d).1 = 0 ↔ d.locked = false) ∧
    ((fib_open d).1 = -EBUSY ↔ d.locked = true) ∧
    (((fib_open d).1 = 0 ∧ d.locked = false ∧ (fib_open d).2 = ⟨true, d.test_buf, d.f_pos⟩) ∨
      ((fib_open d).1 = -EBUSY ∧ d.locked = true ∧ (fib_open d).2 = d)) ∧
    (fib_open d).2.locked = true ∧
    (fib_open (fib_open d).2).1 = -EBUSY ∧
    (fib_release d).1 = 0 ∧ (fib_release d).2.locked = false ∧
    (fib_open (fib_release d).2).1 = 0 ∧
    (fib_open (fib_release (fib_open d).2).2).1 = 0 := by
  obtain ⟨l, b, p⟩ := d
  cases l <;> simp [fib_open, fib_release, EBUSY]

/-- Claim C12: whenever `fib_read` returns, in any state, the position, and the lock,
are as before, and a second read on the 30-byte buffer returns the same value, state
and text; at every position in `[0, 92]`, the positions a seek can set, the read does
return; `fib_write` returns 1 and leaves the whole state, position and buffer
included, unchanged, whatever its arguments; `fib_open` and `fib_release` do not move
the position either. -/
theorem cursor_only_seek (d : Dev) (size size2 : Nat) (h0 : 0 ≤ d.f_pos)
    (h92 : d.f_pos ≤ 92) (hbuf : d.test_buf.length = 30) :
    (∃ r d1 out, fib_read d size = some (r, d1, out) ∧ d1.f_pos = d.f_pos ∧
      fib_read d1 size2 = some (r, d1, out)) ∧
    (∀ (e e1 : Dev) (sz sz2 : Nat) (r : Int) (out : List Nat),
      fib_read e sz = some (r, e1, out) →
        e1.f_pos = e.f_pos ∧ e1.locked = e.locked ∧
        (e.test_buf.length = 30 → fib_read e1 sz2 = some (r, e1, out))) ∧
    (∀ (e : Dev) (sz : Nat), fib_write e sz = (1, e)) ∧
    (∀ e : Dev, (fib_open e).2.f_pos = e.f_pos ∧ (fib_release e).2.f_pos = e.f_pos) := by
  have hk : d.f_pos = ((d.f_pos.toNat : Nat) : Int) := by omega
  have hv : Nat.fib d.f_pos.toNat % 2 ^ 64 < 2 ^ 64 := Nat.mod_lt _ (by positivity)
  refine ⟨⟨_, _, _, fib_read_spec d size d.f_pos.toNat hk (by omega) hbuf, rfl, ?_⟩,
    ?_, ?_, ?_⟩
  · exact fib_read_spec ⟨d.locked, result_buffer (Nat.fib d.f_pos.toNat % 2 ^ 64), d.f_pos⟩
      size2 d.f_pos.toNat hk (by omega) (result_buffer_length _ hv)
  · intro e e1 sz sz2 r out h
    refine ⟨(fib_read_frame e e1 sz r out h).1, (fib_read_frame e e1 sz r out h).2, ?_⟩
    intro hlen
    exact fib_read_twice e e1 sz sz2 r out hlen h
  · intro e sz
    rfl
  · intro e
    constructor
    · unfold fib_open
      split <;> rfl
    · rfl

theorem cursor_only_seek_witness :
    (0 : Int) ≤ 10 ∧ (10 : Int) ≤ 92 ∧ (List.replicate 30 7).length = 30 ∧
    ((∃ r d1 out, fib_read ⟨true, List.replicate 30 7, 10⟩ 30 = some (r, d1, out) ∧
      d1.f_pos = (10 : Int) ∧ fib_read d1 5 = some (r, d1, out)) ∧
    (∀ (e e1 : Dev) (sz sz2 : Nat) (r : Int) (out : List Nat),
      fib_read e sz = some (r, e1, out) →
        e1.f_pos = e.f_pos ∧ e1.locked = e.locked ∧
        (e.test_buf.length = 30 → fib_read e1 sz2 = some (r, e1, out))) ∧
    (∀ (e : Dev) (sz : Nat), fib_write e sz = (1, e)) ∧
    (∀ e : Dev, (fib_open e).2.f_pos = e.f_pos ∧ (fib_release e).2.f_pos = e.f_pos)) :=
  ⟨by decide, by decide, rfl,
    cursor_only_seek ⟨true, List.replicate 30 7, 10⟩ 30 5 (by decide) (by decide) rfl⟩

/-- Claim C13: with the capacity 30 of `test_buf`, `fib_num_to_str` returns true for
every 64-bit value, in particular for the value of every index in `[0, 92]`; so in
`fib_read` the call never returns false and the branch that copies the message is
never taken. -/
theorem encode_never_fails (buf : List Nat) (v : Nat) (hv : v < 2 ^ 64)
    (hbuf : buf.length = 30) :
    fib_num_to_str buf 30 v = some (true, result_buffer v) ∧
    (∀ k : Int, 0 ≤ k → k ≤ 92 → ∃ w, fib_sequence k = some w ∧
      fib_num_to_str buf 30 w = some (true, result_buffer w)) ∧
    (∀ (d : Dev) (fib_n : Nat) (r : Bool × List Nat), d.test_buf.length = 30 →
      fib_sequence d.f_pos = some fib_n → fib_num_to_str d.test_buf 30 fib_n = some r →
      r.1 = true ∧ fib_read_after d fib_n r =
        some (to_ssize fib_n, ⟨d.locked, result_buffer fib_n, d.f_pos⟩, result_buffer fib_n)) := by
  refine ⟨fib_num_to_str_30 buf v hv hbuf, ?_, ?_⟩
  · intro k h0 h92
    have hk : k = ((k.toNat : Nat) : Int) := by omega
    refine ⟨Nat.fib k.toNat % 2 ^ 64, ?_, ?_⟩
    · rw [hk, fib_sequence_eq _ (by omega)]
      simp only [Int.toNat_ofNat]
    · exact fib_num_to_str_30 buf _ (Nat.mod_lt _ (by positivity)) hbuf
  · intro d fib_n r hlen hseq hr
    have hlt := fib_sequence_lt _ _ hseq
    rw [fib_num_to_str_30 _ _ hlt hlen] at hr
    have hr' := Option.some.inj hr
    subst hr'
    refine ⟨rfl, ?_⟩
    unfold fib_read_after
    dsimp only
    rw [if_neg (by decide), Option.some_bind,
      List.take_of_length_le (by rw [result_buffer_length _ hlt])]

theorem encode_never_fails_witness :
    2 ^ 64 - 1 < 2 ^ 64 ∧ (List.replicate 30 7).length = 30 ∧
    (fib_num_to_str (List.replicate 30 7) 30 (2 ^ 64 - 1) =
      some (true, result_buffer (2 ^ 64 - 1)) ∧
    (∀ k : Int, 0 ≤ k → k ≤ 92 → ∃ w, fib_sequence k = some w ∧
      fib_num_to_str (List.replicate 30 7) 30 w = some (true, result_buffer w)) ∧
    (∀ (d : Dev) (fib_n : Nat) (r : Bool × List Nat), d.test_buf.length = 30 →
      fib_sequence d.f_pos = some fib_n → fib_num_to_str d.test_buf 30 fib_n = some r →
      r.1 = true ∧ fib_read_after d fib_n r =
        some (to_ssize fib_n, ⟨d.locked, result_buffer fib_n, d.f_pos⟩, result_buffer fib_n))) :=
  ⟨by norm_num, rfl, encode_never_fails (List.replicate 30 7) (2 ^ 64 - 1) (by norm_num) rfl⟩

/-- Claim C15: for every mode value other than 0, 1 and 2, every offset and every prior
position, `fib_device_lseek` sets the position to 0 and returns 0, which is not an
error value; nothing else in the state changes. -/
theorem lseek_unknown_mode (d : Dev) (offset orig : Int) (h0 : orig ≠ 0) (h1 : orig ≠ 1)
    (h2 : orig ≠ 2) :
    fib_device_lseek d offset orig = (0, ⟨d.locked, d.test_buf, 0⟩) ∧
    (fib_device_lseek d offset orig).1 = 0 ∧ (fib_device_lseek d offset orig).2.f_pos = 0 := by
  have h : fib_device_lseek d offset orig = (0, ⟨d.locked, d.test_buf, 0⟩) := by
    unfold fib_device_lseek MAX_LENGTH
    dsimp only
    rw [if_neg h0, if_neg h1, if_neg h2, if_neg (by decide), if_neg (by decide)]
  exact ⟨h, by rw [h], by rw [h]⟩

theorem lseek_unknown_mode_witness :
    (7 : Int) ≠ 0 ∧ (7 : Int) ≠ 1 ∧ (7 : Int) ≠ 2 ∧
    (fib_device_lseek ⟨true, List.replicate 30 0, 40⟩ 25 7 =
      (0, ⟨true, List.replicate 30 0, 0⟩) ∧
    (fib_device_lseek ⟨true, List.replicate 30 0, 40⟩ 25 7).1 = 0 ∧
    (fib_device_lseek ⟨true, List.replicate 30 0, 40⟩ 25 7).2.f_pos = 0) :=
  ⟨by decide, by decide, by decide,
    lseek_unknown_mode ⟨true, List.replicate 30 0, 40⟩ 25 7 (by decide) (by decide)
      (by decide)⟩

/-- Claim C16 as stated fails: on a string of `2^32` bytes of value 1 followed by the
terminator, the length does not fit the `int` that holds it and is taken as 0, so
`rev_str` returns false, where the claim has it return true. -/
theorem rev_str_long_counterexample :
    (∀ a ∈ List.replicate (2 ^ 32) 1, a ≠ 0) ∧ (List.replicate (2 ^ 32) 1).length = 2 ^ 32 ∧
    rev_str (List.replicate (2 ^ 32) 1 ++ 0 :: []) =
      some (false, List.replicate (2 ^ 32) 1 ++ 0 :: []) := by
  have h0 : ∀ a ∈ List.replicate (2 ^ 32) 1, a ≠ 0 := by
    intro a ha
    rw [List.eq_of_mem_replicate ha]
    exact Nat.one_ne_zero
  refine ⟨h0, List.length_replicate _ _, ?_⟩
  unfold rev_str
  rw [strlen_spec _ _ h0, Option.some_bind, List.length_replicate]
  dsimp only
  rw [wrap32_two_pow_32, if_pos rfl]

/-- Claim C16, amended: for every zero-terminated byte string of length `n` with
`1 <= n < 2^31`, `rev_str` returns true and leaves the first `n` bytes in reversed
order (byte `i` becomes the original byte `n - 1 - i`) with the terminator and all
that follows unchanged, so a second `rev_str` restores the string; on the empty
string it returns false and changes nothing. -/
theorem rev_str_reverses (A B : List Nat) (hne : A ≠ []) (h0 : ∀ a ∈ A, a ≠ 0)
    (hlen : A.length < 2 ^ 31) :
    rev_str (A ++ 0 :: B) = some (true, A.reverse ++ 0 :: B) ∧
    (∀ i : Nat, i < A.length → (A.reverse ++ 0 :: B)[i]? = A[A.length - 1 - i]?) ∧
    (A.reverse ++ 0 :: B).drop A.length = 0 :: B ∧
    rev_str (A.reverse ++ 0 :: B) = some (true, A ++ 0 :: B) ∧
    rev_str (0 :: B) = some (false, 0 :: B) := by
  refine ⟨rev_str_spec A B hne h0 hlen, ?_, ?_, ?_, rev_str_empty B⟩
  · intro i hi
    rw [List.getElem?_append_left (by rw [List.length_reverse]; exact hi),
      List.getElem?_reverse hi]
  · rw [List.drop_append_of_le_length (by rw [List.length_reverse])]
    rw [List.drop_of_length_le (by rw [List.length_reverse]), List.nil_append]
  · have h := rev_str_spec A.reverse B
      (by intro h; exact hne (List.reverse_eq_nil_iff.mp h))
      (by intro a ha; exact h0 a (List.mem_reverse.mp ha))
      (by rw [List.length_reverse]; exact hlen)
    rw [List.reverse_reverse] at h
    exact h

set_option maxRecDepth 100000 in
theorem rev_str_reverses_witness :
    [49, 50, 51] ≠ ([] : List Nat) ∧ (∀ a ∈ [49, 50, 51], a ≠ 0) ∧
    [49, 50, 51].length < 2 ^ 31 ∧
    (rev_str ([49, 50, 51] ++ 0 :: [7, 0]) = some (true, [49, 50, 51].reverse ++ 0 :: [7, 0]) ∧
    (∀ i : Nat, i < [49, 50, 51].length →
      ([49, 50, 51].reverse ++ 0 :: [7, 0])[i]? = [49, 50, 51][[49, 50, 51].length - 1 - i]?) ∧
    ([49, 50, 51].reverse ++ 0 :: [7, 0]).drop [49, 50, 51].length = 0 :: [7, 0] ∧
    rev_str ([49, 50, 51].reverse ++ 0 :: [7, 0]) = some (true, [49, 50, 51] ++ 0 :: [7, 0]) ∧
    rev_str (0 :: [7, 0]) = some (false, 0 :: [7, 0])) :=
  ⟨by decide, by decide, by norm_num,
    rev_str_reverses [49, 50, 51] [7, 0] (by decide) (by decide) (by norm_num)⟩

/-- Claim C17: in `adder`, after each iteration `i` of the 64 the pair `(s, c)` satisfies
`s + c = a + b` modulo `2^64` and the low `i` bits of `c` are zero; hence the carry
word left in `*c` on return is 0, and the outputs do not depend on what `*s` and `*c`
held before the call. -/
theorem adder_carry_invariant (c s c2 s2 a b i : Nat) (ha : a < 2 ^ 64) (hb : b < 2 ^ 64)
    (hi1 : 1 ≤ i) (hi : i ≤ 64) :
    ((adder_loop i (c, s, a, b)).2.1 + (adder_loop i (c, s, a, b)).1) % 2 ^ 64 =
      (a + b) % 2 ^ 64 ∧
    (adder_loop i (c, s, a, b)).1 % 2 ^ i = 0 ∧
    (adder c s a b).1 = 0 ∧ adder c s a b = adder c2 s2 a b := by
  obtain ⟨_, _, k3, k4, k5⟩ :=
    adder_loop_inv i 0 ((a + b) % 2 ^ 64) (c, s, a, b) (by omega) ha hb (by simp) rfl
  obtain ⟨k6, k7⟩ := k5 (by omega)
  rw [Nat.zero_add] at k3
  refine ⟨?_, ?_, ?_, ?_⟩
  · rw [k6, k7]; exact k4
  · rw [k6]; exact Nat.mod_eq_zero_of_dvd k3
  · rw [adder_spec c s a b ha hb]
  · rw [adder_spec c s a b ha hb, adder_spec c2 s2 a b ha hb]

theorem adder_carry_invariant_witness :
    2 ^ 64 - 1 < 2 ^ 64 ∧ 3 < 2 ^ 64 ∧ 1 ≤ 5 ∧ 5 ≤ 64 ∧
    (((adder_loop 5 (9, 8, 2 ^ 64 - 1, 3)).2.1 + (adder_loop 5 (9, 8, 2 ^ 64 - 1, 3)).1) % 2 ^ 64 =
      (2 ^ 64 - 1 + 3) % 2 ^ 64 ∧
    (adder_loop 5 (9, 8, 2 ^ 64 - 1, 3)).1 % 2 ^ 5 = 0 ∧
    (adder 9 8 (2 ^ 64 - 1) 3).1 = 0 ∧ adder 9 8 (2 ^ 64 - 1) 3 = adder 0 0 (2 ^ 64 - 1) 3) :=
  ⟨by norm_num, by norm_num, by decide, by decide,
    adder_carry_invariant 9 8 0 0 (2 ^ 64 - 1) 3 5 (by norm_num) (by norm_num) (by decide)
      (by decide)⟩

/-- Claim C18 as stated fails: at `k = 2^31 - 1` the `int` counter of the loop of
`fib_sequence` wraps when it is incremented at `2^31 - 1`, the next iteration uses the
index `-2^31`, which is not in `[0, k + 1]`, and the store there is outside the
table, so the call has no defined result. -/
theorem fib_table_counterexample :
    (0 : Int) ≤ 2 ^ 31 - 1 ∧
    (-2 ^ 31 : Int) ∈ fib_sequence_indices (2 ^ 31 - 1) ∧
    ¬ ((0 : Int) ≤ -2 ^ 31) ∧
    fib_sequence (2 ^ 31 - 1) = none := by
  refine ⟨by decide, ?_, by decide, fib_sequence_big _ (le_refl _)⟩
  unfold fib_sequence_indices
  refine List.mem_cons_of_mem _ (List.mem_cons_of_mem _ (List.mem_append_left _ ?_))
  exact fib_loop_indices_wrapped (2 ^ 31 - 1) (le_refl _) (2 ^ 31 - 3) (2 ^ 31) 2
    (by decide) (by norm_num) (by norm_num)

/-- Claim C18, amended: for every value and every capacity `size >= 1`, every index at
which the zero-fill loop and the digit loop of `fib_num_to_str` store is below
`size`, on the runs that return false as well, so on a buffer of exactly `size` bytes
both loops run without leaving it; and for every `k` with `0 <= k < 2^31 - 1` every
index that `fib_sequence` uses into its table of `k + 2` cells lies in `[0, k + 1]`,
so the call returns.  The lists of indices are those of the loops: a loop runs
through on a memory object exactly when the object contains all of them. -/
theorem store_indices_in_bounds (size k : Int) (n : Nat) (hsize : 1 ≤ size) (hk : 0 ≤ k)
    (hk2 : k < 2 ^ 31 - 1) :
    (∀ j ∈ zero_fill_indices size.toNat 0, (j : Int) < size) ∧
    (∀ j ∈ digit_loop_indices size (n + 1) 0 n, (j : Int) < size) ∧
    (∀ j ∈ fib_sequence_indices k, 0 ≤ j ∧ j ≤ k + 1) ∧
    (∀ str : List Nat, (str.length : Int) = size →
      (zero_fill size.toNat 0 str).isSome ∧ (digit_loop size (n + 1) str 0 n).isSome) ∧
    (fib_sequence k).isSome ∧
    (∀ str : List Nat, (zero_fill size.toNat 0 str).isSome ↔
      ∀ j ∈ zero_fill_indices size.toNat 0, j < str.length) ∧
    (∀ str : List Nat, (digit_loop size (n + 1) str 0 n).isSome ↔
      ∀ j ∈ digit_loop_indices size (n + 1) 0 n, j < str.length) ∧
    (∀ (fuel : Nat) (i : Int) (f : List Nat), 2 ≤ i → i ≤ k + 1 → (k + 1 - i).toNat < fuel →
      ((fib_loop k fuel i f).isSome ↔
        ∀ j ∈ fib_loop_indices k fuel i, 0 ≤ j ∧ j < (f.length : Int))) := by
  have hz : ∀ j ∈ zero_fill_indices size.toNat 0, (j : Int) < size := by
    intro j hj
    have := zero_fill_indices_lt size.toNat 0 j hj
    omega
  have hd : ∀ j ∈ digit_loop_indices size (n + 1) 0 n, (j : Int) < size :=
    digit_loop_indices_lt size (n + 1) n 0 (by omega)
  refine ⟨hz, hd, ?_, ?_, ?_, fun str => zero_fill_isSome_iff _ _ _,
    fun str => digit_loop_isSome_iff size (n + 1) n 0 str (by omega),
    fun fuel i f h2 hi hf => fib_loop_isSome_iff k hk2 fuel i f h2 hi hf⟩
  · intro j hj
    unfold fib_sequence_indices at hj
    simp only [List.mem_cons, List.mem_append, List.mem_singleton, List.not_mem_nil,
      or_false] at hj
    rcases hj with rfl | rfl | hj | rfl
    · omega
    · omega
    · have := fib_loop_indices_range k hk2 (2 ^ 31) 2 (le_refl 2) j hj
      omega
    · omega
  · intro str hlen
    constructor
    · rw [zero_fill_isSome_iff]
      intro j hj
      have := hz j hj
      omega
    · rw [digit_loop_isSome_iff size (n + 1) n 0 str (by omega)]
      intro j hj
      have := hd j hj
      omega
  · have hk' : k = ((k.toNat : Nat) : Int) := by omega
    rw [hk', fib_sequence_eq _ (by omega)]
    rfl

set_option maxRecDepth 100000 in
theorem store_indices_in_bounds_witness :
    (1 : Int) ≤ 2 ∧ (0 : Int) ≤ 5 ∧ (5 : Int) < 2 ^ 31 - 1 ∧
    digit_loop 2 (123 + 1) [0, 0] 0 123 = some (false, [51, 50]) ∧
    digit_loop_indices 2 (123 + 1) 0 123 = [0, 1] ∧
    fib_sequence_indices 5 = [0, 1, 1, 0, 2, 2, 1, 3, 3, 2, 4, 4, 3, 5, 5] ∧
    ((∀ j ∈ zero_fill_indices (2 : Int).toNat 0, (j : Int) < 2) ∧
    (∀ j ∈ digit_loop_indices 2 (123 + 1) 0 123, (j : Int) < 2) ∧
    (∀ j ∈ fib_sequence_indices 5, 0 ≤ j ∧ j ≤ 5 + 1) ∧
    (∀ str : List Nat, (str.length : Int) = 2 →
      (zero_fill (2 : Int).toNat 0 str).isSome ∧ (digit_loop 2 (123 + 1) str 0 123).isSome) ∧
    (fib_sequence 5).isSome ∧
    (∀ str : List Nat, (zero_fill (2 : Int).toNat 0 str).isSome ↔
      ∀ j ∈ zero_fill_indices (2 : Int).toNat 0, j < str.length) ∧
    (∀ str : List Nat, (digit_loop 2 (123 + 1) str 0 123).isSome ↔
      ∀ j ∈ digit_loop_indices 2 (123 + 1) 0 123, j < str.length) ∧
    (∀ (fuel : Nat) (i : Int) (f : List Nat), 2 ≤ i → i ≤ 5 + 1 →
      ((5 : Int) + 1 - i).toNat < fuel →
      ((fib_loop 5 fuel i f).isSome ↔
        ∀ j ∈ fib_loop_indices 5 fuel i, 0 ≤ j ∧ j < (f.length : Int)))) :=
  ⟨by decide, by decide, by decide, by decide, by decide, by decide,
    store_indices_in_bounds 2 5 123 (by decide) (by decide) (by decide)⟩

/-- Claim C19: for every 64-bit `n`, with `tmp = n / 10` the shifts `tmp << 3` and
`tmp << 1` do not overflow and `n - (tmp << 3) - (tmp << 1)` in 64-bit arithmetic is
`n mod 10`, a value in `0..9` for which the `switch` selects the one case of that
digit; so an iteration of the loop of `fib_num_to_str` or-s the single character
`'0' + n mod 10` into `str[i]`, advances `i` by one and goes on with `n / 10`. -/
theorem digit_extraction (n : Nat) (hn : n < 2 ^ 64) :
    (n / 10) <<< 3 < 2 ^ 64 ∧ (n / 10) <<< 1 < 2 ^ 64 ∧
    shl64 (n / 10) 3 = 8 * (n / 10) ∧ shl64 (n / 10) 1 = 2 * (n / 10) ∧
    sub64 (sub64 n (shl64 (n / 10) 3)) (shl64 (n / 10) 1) = n % 10 ∧
    n % 10 ≤ 9 ∧
    switch_digit (n % 10) = some (48 + n % 10) ∧
    (∀ d : Nat, d ≤ 9 → (switch_digit d = some (48 + n % 10) ↔ d = n % 10)) ∧
    (0 ||| (48 + n % 10) = 48 + n % 10) ∧
    (∀ (size : Int) (fuel i b : Nat) (str : List Nat), load str i = some b →
      digit_loop size (fuel + 1) str i n =
        if n / 10 = 0 then some (true, str.set i (b ||| (48 + n % 10)))
        else if ((i + 1 : Nat) : Int) ≥ size then
          some (false, str.set i (b ||| (48 + n % 10)))
        else digit_loop size fuel (str.set i (b ||| (48 + n % 10))) (i + 1) (n / 10)) := by
  have h3 : (n / 10) <<< 3 = 8 * (n / 10) := by rw [Nat.shiftLeft_eq]; omega
  have h1 : (n / 10) <<< 1 = 2 * (n / 10) := by rw [Nat.shiftLeft_eq]; omega
  have hlt : n % 10 < 10 := Nat.mod_lt _ (by decide)
  refine ⟨by omega, by omega, ?_, ?_, digit_arith n hn, by omega, switch_digit_lt _ hlt,
    ?_, Nat.zero_or _, ?_⟩
  · unfold shl64; rw [h3]; omega
  · unfold shl64; rw [h1]; omega
  · intro d hd
    rw [switch_digit_lt d (by omega)]
    constructor
    · intro h
      have := Option.some.inj h
      omega
    · intro h
      rw [h]
  · intro size fuel i b str hload
    have hi : i < str.length := (load_isSome str i).mp (by rw [hload]; rfl)
    rw [digit_loop]
    simp only [digit_arith n hn, switch_digit_lt (n % 10) hlt]
    rw [hload, Option.some_bind, store_of_lt _ _ _ hi]
    rfl

set_option maxRecDepth 100000 in
theorem digit_extraction_witness :
    2 ^ 64 - 1 < 2 ^ 64 ∧
    sub64 (sub64 (2 ^ 64 - 1) (shl64 ((2 ^ 64 - 1) / 10) 3)) (shl64 ((2 ^ 64 - 1) / 10) 1) = 5 ∧
    (((2 ^ 64 - 1) / 10) <<< 3 < 2 ^ 64 ∧ ((2 ^ 64 - 1) / 10) <<< 1 < 2 ^ 64 ∧
    shl64 ((2 ^ 64 - 1) / 10) 3 = 8 * ((2 ^ 64 - 1) / 10) ∧
    shl64 ((2 ^ 64 - 1) / 10) 1 = 2 * ((2 ^ 64 - 1) / 10) ∧
    sub64 (sub64 (2 ^ 64 - 1) (shl64 ((2 ^ 64 - 1) / 10) 3)) (shl64 ((2 ^ 64 - 1) / 10) 1) =
      (2 ^ 64 - 1) % 10 ∧
    (2 ^ 64 - 1) % 10 ≤ 9 ∧
    switch_digit ((2 ^ 64 - 1) % 10) = some (48 + (2 ^ 64 - 1) % 10) ∧
    (∀ d : Nat, d ≤ 9 → (switch_digit d = some (48 + (2 ^ 64 - 1) % 10) ↔ d = (2 ^ 64 - 1) % 10)) ∧
    (0 ||| (48 + (2 ^ 64 - 1) % 10) = 48 + (2 ^ 64 - 1) % 10) ∧
    (∀ (size : Int) (fuel i b : Nat) (str : List Nat), load str i = some b →
      digit_loop size (fuel + 1) str i (2 ^ 64 - 1) =
        if (2 ^ 64 - 1) / 10 = 0 then some (true, str.set i (b ||| (48 + (2 ^ 64 - 1) % 10)))
        else if ((i + 1 : Nat) : Int) ≥ size then
          some (false, str.set i (b ||| (48 + (2 ^ 64 - 1) % 10)))
        else digit_loop size fuel (str.set i (b ||| (48 + (2 ^ 64 - 1) % 10))) (i + 1)
          ((2 ^ 64 - 1) / 10))) :=
  ⟨by norm_num, by decide, digit_extraction (2 ^ 64 - 1) (by norm_num)⟩

end Fibdrv
